import Mathlib

/-!
Shallow embedding of `spectre/parallel/algorithmic.py`.

Numeric buffers are modeled as lists of `Option ℚ`: `none` is the missing-value
marker (float NaN in the source), `some q` a finite value.  Torch tensor
operations appearing in the source (gather/take, masked fill, sort, unfold,
slicing, concatenation) are modeled as total list functions with Python
index/slice semantics.  `torch.sort` is modeled by `List.insertionSort`;
everywhere the source sorts, the sorted values are pairwise distinct (or the
tied tail is discarded), so any correct sort primitive yields the same result
and tie-breaking behavior of the primitive is irrelevant.
-/

namespace Spectre

/-- Missing-value-aware scalar: `none` models float NaN. -/
abbrev Val := Option ℚ

/-- Python slice `l[s:e]` (for `0 ≤ s ≤ e`; an empty list when `e ≤ s`). -/
def slice (s e : ℕ) (l : List α) : List α := (l.drop s).take (e - s)

/-- Adjacent pairs `zip(b[:-1], b[1:])` of a list. -/
def adjPairs : List ℕ → List (ℕ × ℕ)
  | a :: b :: t => (a, b) :: adjPairs (b :: t)
  | _ => []

/-! ### ParallelGroupBy construction

Source: `ParallelGroupBy.__init__`.  Keys are integer-resolution scalars
(the construction truncates the perturbed keys back with `.int()`), modeled
as `List ℤ`; the perturbation arithmetic is exact rational arithmetic. -/

namespace ParallelGroupBy

/-- The element `i` of `torch.linspace(0, 0.9, n)`: the per-row perturbation
offset `0.9 * i / (n - 1)` (and `0` for `n ≤ 1`). -/
def linsp (n i : ℕ) : ℚ := if n ≤ 1 then 0 else (9 / 10) * i / ((n : ℚ) - 1)

/-- Perturbed key of row `i`: `keys + torch.linspace(0, 0.9, n)` at position `i`. -/
def relKey (keys : List ℤ) (i : ℕ) : ℚ :=
  ((keys.getD i 0 : ℤ) : ℚ) + linsp keys.length i

/-- Comparison of two row positions by perturbed key (the sort order used by
`torch.sort(relative_key)`). -/
def relLe (keys : List ℤ) (i j : ℕ) : Prop := relKey keys i ≤ relKey keys j

instance (keys : List ℤ) : DecidableRel (relLe keys) := fun i j =>
  (inferInstance : Decidable (relKey keys i ≤ relKey keys j))

instance (keys : List ℤ) : IsTotal ℕ (relLe keys) := ⟨fun _ _ => le_total _ _⟩

instance (keys : List ℤ) : IsTrans ℕ (relLe keys) := ⟨fun _ _ _ h h' => le_trans h h'⟩

/-- The permutation returned by `torch.sort(relative_key)`: original row
positions listed in ascending order of perturbed key.  All perturbed keys are
pairwise distinct, so this is the unique sorted arrangement. -/
def sortedIndices (keys : List ℤ) : List ℕ :=
  List.insertionSort (relLe keys) (List.range keys.length)

/-- Truncation toward zero, the semantics of `torch.Tensor.int()`. -/
def ratTrunc (q : ℚ) : ℤ := if q < 0 then -⌊-q⌋ else ⌊q⌋

/-- The tensor `sorted_keys.int()`: perturbed keys in sorted order, truncated
toward zero. -/
def sortedKeysInt (keys : List ℤ) : List ℤ :=
  (sortedIndices keys).map (fun i => ratTrunc (relKey keys i))

/-- Interior group boundaries: `(diff.nonzero()[0] + 1).tolist()`, the
positions `j + 1` where adjacent truncated sorted keys differ. -/
def mids (keys : List ℤ) : List ℕ :=
  (List.range (keys.length - 1)).filterMap (fun j =>
    if (sortedKeysInt keys).getD (j + 1) 0 ≠ (sortedKeysInt keys).getD j 0
    then some (j + 1) else none)

/-- The boundary array `[0] + boundary + [n]`. -/
def boundary (keys : List ℤ) : List ℕ := 0 :: (mids keys ++ [keys.length])

/-- The runs `sorted_indices[start:end]`, one per group, taken over the
adjacent boundary pairs. -/
def runs (keys : List ℤ) : List (List ℕ) :=
  (adjPairs (boundary keys)).map (fun p => slice p.1 p.2 (sortedIndices keys))

/-- The rectangle width `np.diff(boundary).max()`: size of the largest group. -/
def width (keys : List ℤ) : ℕ :=
  ((adjPairs (boundary keys)).map (fun p => p.2 - p.1)).foldr max 0

/-- The group count `len(boundary) - 1`. -/
def groups (keys : List ℤ) : ℕ := (boundary keys).length - 1

/-- Left-align a row inside a rectangle row of width `w`, padding with `fill`. -/
def padTo (w : ℕ) (fill : α) (r : List α) : List α :=
  r ++ List.replicate (w - r.length) fill

/-- The index matrix rows before choosing a concrete sentinel: the source fills
two `(groups, width)` matrices (`new_full` with `n + 1`, resp. `-1`) with the
same runs; both are images of this one `Option`-valued matrix. -/
def runsP (keys : List ℤ) : List (List (Option ℕ)) :=
  (runs keys).map (fun r => padTo (width keys) none (r.map some))

/-- The flattened index matrix (row-major), sentinel cells as `none`. -/
def cells (keys : List ℤ) : List (Option ℕ) := (runsP keys).flatten

/-- Flattened `take_indices`: sentinel is `-1`. -/
def takeFlat (keys : List ℤ) : List ℤ :=
  (cells keys).map (fun c => c.elim (-1) (fun i => (i : ℤ)))

/-- Flattened `padding_mask = take_indices == -1`. -/
def maskFlat (keys : List ℤ) : List Bool :=
  (takeFlat keys).map (fun v => v == -1)

/-- Flattened `inverse_indices` matrix before the final sort: sentinel is
`n + 1`, which sorts after every row index. -/
def invFlat (keys : List ℤ) : List ℕ :=
  (cells keys).map (fun c => c.elim (keys.length + 1) id)

/-- Comparison of flat positions by their value in `f` (the order used by
`torch.sort(inverse_indices)` on the flattened matrix). -/
def posLe (f : List ℕ) (p q : ℕ) : Prop := f.getD p 0 ≤ f.getD q 0

instance (f : List ℕ) : DecidableRel (posLe f) := fun p q =>
  (inferInstance : Decidable (f.getD p 0 ≤ f.getD q 0))

instance (f : List ℕ) : IsTotal ℕ (posLe f) := ⟨fun _ _ => le_total _ _⟩

instance (f : List ℕ) : IsTrans ℕ (posLe f) := ⟨fun _ _ _ h h' => le_trans h h'⟩

/-- The member `inverse_indices = torch.sort(flat)[1][:n]`: the argsort of the
flattened sentinel-padded index matrix, truncated to the first `n` entries.
The first `n` sorted values `0 .. n-1` are pairwise distinct, so the truncated
argsort is independent of how the sort primitive breaks ties among sentinels. -/
def inverseIndices (keys : List ℤ) : List ℕ :=
  (List.insertionSort (posLe (invFlat keys)) (List.range (invFlat keys).length)).take
    keys.length

/-- The member `self._data_shape = (groups, width)`. -/
def dataShape (keys : List ℤ) : List ℕ := [groups keys, width keys]

end ParallelGroupBy

/-- A shape-tagged numeric buffer (rank and extents explicit, data flattened
row-major), as needed by `revert`'s shape test. -/
structure STensor where
  shape : List ℕ
  data : List Val
deriving DecidableEq

/-- Python/torch `torch.take(v, idx)` at one index: a negative index wraps
around from the end. -/
def torchTake (v : List Val) (idx : ℤ) : Val :=
  if idx < 0 then v.getD (v.length - idx.natAbs) none else v.getD idx.toNat none

namespace ParallelGroupBy

/-- Source `ParallelGroupBy.split`: gather `data` at `take_indices`
(`torch.take`), then `masked_fill_` the padding cells with NaN.  (The dead
dtype assert between the two steps is modeled separately; see `DType`.) -/
def split (keys : List ℤ) (data : List Val) : STensor :=
  ⟨dataShape keys,
   List.zipWith (fun x m => if m then none else x)
     ((takeFlat keys).map (torchTake data)) (maskFlat keys)⟩

/-- Error raised by `revert`: the source raises `ValueError` with a message
interpolating the actual shape, the expected shape and the debug label; the
`multiOutputHint` flag selects the distinct "this factor has multiple return
values, use slice to select a value" message text. -/
structure RevertErr where
  multiOutputHint : Bool
  actualShape : List ℕ
  expectedShape : List ℕ
  label : String
deriving DecidableEq

/-- Source `ParallelGroupBy.revert`: shape test against `_data_shape` (with the
leading-two-dimensions comparison selecting the multiple-return-values hint),
then `torch.take(split_data, inverse_indices)`. -/
def revert (keys : List ℤ) (t : STensor) (label : String) :
    Except RevertErr (List Val) :=
  if t.shape ≠ dataShape keys then
    if t.shape.take 2 = dataShape keys then
      .error ⟨true, t.shape, dataShape keys, label⟩
    else
      .error ⟨false, t.shape, dataShape keys, label⟩
  else
    .ok ((inverseIndices keys).map (fun p => t.data.getD p none))

end ParallelGroupBy

/-! ### The dtype assert in `split`

The source guards `split` with
`assert ret.type not in {torch.int8, torch.int16, torch.int32, torch.int64}`.
`ret.type` is the bound method `torch.Tensor.type`, not the dtype of `ret`:
the membership test compares a method object against dtype objects, so it is
false for every tensor and the assert never fires.  The model keeps that
comparison exactly as written. -/

/-- Element dtypes relevant to `split`'s guard. -/
inductive DType
  | float32 | float64 | int8 | int16 | int32 | int64
deriving DecidableEq

/-- A Python value appearing in the assert: either a dtype object or the bound
method object `Tensor.type`. -/
inductive PyObj
  | dtypeObj (d : DType)
  | typeMethod
deriving DecidableEq

/-- The expression `ret.type` of the source: attribute access on a tensor
yields the bound method object, whatever the tensor's dtype is. -/
def retTypeAttr (_ : DType) : PyObj := PyObj.typeMethod

/-- The literal `{torch.int8, torch.int16, torch.int32, torch.int64}`. -/
def intDTypeSet : List PyObj :=
  [.dtypeObj .int8, .dtypeObj .int16, .dtypeObj .int32, .dtypeObj .int64]

/-- Truth value of `ret.type not in {torch.int8, ...}` for a buffer of the
given dtype. -/
def splitAssertPasses (d : DType) : Bool := !(intDTypeSet.contains (retTypeAttr d))

/-- Source `split` together with its dtype assert: the assert raises (as
`.error`) exactly when `splitAssertPasses` is false. -/
def splitChecked (keys : List ℤ) (d : DType) (data : List Val) :
    Except String STensor :=
  if splitAssertPasses d then .ok (ParallelGroupBy.split keys data)
  else .error "tensor cannot be any type of int, recommended to use float32"

/-- Modelled from the spec: the guard the assert's own message and the spec
describe — `split` must reject value buffers whose element type cannot hold
the missing marker, i.e. the integral dtypes. -/
def specTypeSupported (d : DType) : Bool := !(intDTypeSet.contains (.dtypeObj d))

/-! ### NaN-aware reductions

The library functions act along `dim=1` of a 2-D buffer, i.e. per row; they
are modeled by their per-row action plus a `map`. -/

/-- Row action of `nansum`: set NaN cells to `0`, then sum. -/
def nansumRow (row : List Val) : ℚ := (row.map (fun x => x.getD 0)).sum

/-- Source `nansum` along `dim=1`. -/
def nansum (data : List (List Val)) : List ℚ := data.map nansumRow

/-- The count `(~isnan).sum(dim=dim)` of non-missing cells of a row. -/
def nnCount (row : List Val) : ℕ := (row.filter (fun x => !x.isNone)).length

/-- Row action of `nanmean`: the zero-filled sum divided by the non-missing
count.  When the count is `0` the numerator is also `0` and the float division
`0 / 0` produces NaN, modeled as `none`. -/
def nanmeanRow (row : List Val) : Val :=
  if nnCount row = 0 then none else some (nansumRow row / (nnCount row : ℚ))

/-- Source `nanmean` along `dim=1`. -/
def nanmean (data : List (List Val)) : List Val := data.map nanmeanRow

/-- Row action of `nanmax`: set NaN cells to `-inf` (modeled by `⊥` of
`WithBot ℚ`), then take the max along the row. -/
def nanmaxRow (row : List Val) : WithBot ℚ :=
  (row.map (fun x => x.elim ⊥ (fun q => (q : WithBot ℚ)))).foldr max ⊥

/-- Source `nanmax` along `dim=1`. -/
def nanmax (data : List (List Val)) : List (WithBot ℚ) := data.map nanmaxRow

/-- Element `k` of `torch.linspace(0.1, 0, m)`: the strictly decreasing
positional weight used by `nanlast` (`[0.1]` when `m = 1`). -/
def linspaceDec (m k : ℕ) : ℚ :=
  if m ≤ 1 then 1 / 10 else 1 / 10 - (1 / 10) * k / ((m : ℚ) - 1)

/-- Index of the first minimum of a rational list (`torch.argmin`; every mask
`nanlast` builds has pairwise distinct entries, so the tie rule is moot). -/
def argminQ : List ℚ → ℕ
  | [] => 0
  | x :: xs =>
    let j := argminQ xs
    if x ≤ xs.getD j x then 0 else j + 1

/-- Row action of `nanlast`: add the decreasing positional weight to the
0/1 NaN indicator, take the argmin (the rightmost non-missing position, when
one exists), and gather that cell.  The source then `squeeze`s the gathered
tensor and conditionally re-expands it; for the shapes produced here that is
the identity reshaping, so the model gathers cell-wise. -/
def nanlastRow (row : List Val) : Val :=
  row.getD
    (argminQ (List.zipWith (fun x wk => (if x.isNone then (1 : ℚ) else 0) + wk) row
      ((List.range row.length).map (linspaceDec row.length)))) none

/-! ### Rolling engine -/

/-- A rows-by-time buffer. -/
abbrev Tensor2 := List (List Val)

/-- A rows-by-time-by-window buffer. -/
abbrev Tensor3 := List (List (List Val))

/-- Source `nanlast(x, dim=2)` applied to a windowed buffer. -/
def nanlast3 (t : Tensor3) : Tensor2 := t.map (fun row => row.map nanlastRow)

/-- Source `Rolling.unfold`: left-pad the time axis with `win - 1` fill cells,
then take the sliding windows `padded[t : t + win]`, one per original time
position. -/
def unfold (x : Tensor2) (win : ℕ) (fill : Val) : Tensor3 :=
  x.map (fun row =>
    let padded := List.replicate (win - 1) fill ++ row
    (List.range row.length).map (fun t => slice t (t + win) padded))

/-- Total element count `Tensor.nelement()` of a windowed buffer. -/
def nelement3 (t : Tensor3) : ℕ := (t.map (fun row => (row.map List.length).sum)).sum

/-- Python `range(0, stop, step)` for `step ≥ 1`. -/
def pyRange (stop step : ℕ) : List ℕ :=
  (List.range ((stop + step - 1) / step)).map (· * step)

/-- The class constant `Rolling._split_multi`. -/
def splitMulti : ℚ := 64

/-- The chunk ranges computed in `Rolling.__init__`: the memory-usage figure
`nelement / 1024³ * multi`, the row step `max(int(rows / memory_usage), 1)`
(`int()` truncates toward zero; `Int.toNat` flattens a negative truncation to
`0`, which the outer `max _ 1` makes equivalent), and the adjacent pairs of
`list(range(0, rows, step)) + [rows]`. -/
def mkSplits (rows nelem : ℕ) (multi : ℚ) : List (ℕ × ℕ) :=
  let memoryUsage : ℚ := ((nelem : ℚ) / 1024 ^ 3) * multi
  let step : ℕ := max (Int.toNat ⌊(rows : ℚ) / memoryUsage⌋) 1
  adjPairs (pyRange rows step ++ [rows])

/-- State of a `Rolling` engine. -/
structure Rolling where
  values : Tensor3
  win : ℕ
  split : List (ℕ × ℕ)
  adjustments : Option Tensor3
  adjustment_last : Option Tensor2

/-- Source `Rolling.__init__` without an adjustment tensor (`_adjustment=None`),
with the tuning constant `multi` (`Rolling._split_multi` in the source) made
an explicit parameter. -/
def Rolling.mk0 (x : Tensor2) (win : ℕ) (multi : ℚ) : Rolling :=
  let v := unfold x win none
  { values := v
    win := win
    split := mkSplits x.length (nelement3 v) multi
    adjustments := none
    adjustment_last := none }

/-- NaN-propagating float multiplication. -/
def vmul : Val → Val → Val
  | some a, some b => some (a * b)
  | _, _ => none

/-- NaN-propagating float division.  A zero divisor yields a non-finite float;
no claim here divides by zero, and the model returns `none` there. -/
def vdiv : Val → Val → Val
  | some a, some b => if b = 0 then none else some (a / b)
  | _, _ => none

/-- Source `Rolling.adjusted`: the row range `[s:e]` of
`values * adjustments / adjustment_last[:, :, None]` (the last-known adjustment
is broadcast across the window axis), or of plain `values` when no adjustment
was given. -/
def Rolling.adjusted (r : Rolling) (s e : ℕ) : Tensor3 :=
  match r.adjustments, r.adjustment_last with
  | some adj, some last =>
      List.zipWith3 (fun vrow arow lrow =>
        List.zipWith3 (fun vwin awin lcell =>
          (List.zipWith vmul vwin awin).map (fun c => vdiv c lcell))
          vrow arow lrow)
        (slice s e r.values) (slice s e adj) (slice s e last)
  | _, _ => slice s e r.values

/-- The chunk loop of `Rolling.agg`: apply `op` to the adjusted chunk of this
engine and of every engine in `others`, then concatenate the per-chunk results
along the row axis in chunk order (`torch.cat`). -/
def Rolling.aggSeq (r : Rolling) (op : Tensor3 → List Tensor3 → Tensor2)
    (others : List Rolling) : Tensor2 :=
  (r.split.map (fun p =>
    op (r.adjusted p.1 p.2) (others.map (fun o => o.adjusted p.1 p.2)))).flatten

/-- Source `Rolling.agg`: the window-size assert, then the chunk loop. -/
def Rolling.agg (r : Rolling) (op : Tensor3 → List Tensor3 → Tensor2)
    (others : List Rolling) : Except String Tensor2 :=
  if others.all (fun o => o.win == r.win) then .ok (r.aggSeq op others)
  else .error "`others` must have same `win` with `self`"

/-- Python index into an axis of length `len`: a negative index wraps from the
end. -/
def pyIdx (len : ℕ) (i : ℤ) : ℕ := if i < 0 then len - i.natAbs else i.toNat

/-- The slice `x[:, :, i]` of a windowed buffer. -/
def tIndex3 (t : Tensor3) (i : ℤ) : Tensor2 :=
  t.map (fun row => row.map (fun wnd => wnd.getD (pyIdx wnd.length i) none))

/-- Source `Rolling.loc`: window offset `-1` bypasses adjustment and chunking
entirely; every other offset goes through `agg`. -/
def Rolling.loc (r : Rolling) (i : ℤ) : Except String Tensor2 :=
  if i = -1 then .ok (tIndex3 r.values i)
  else r.agg (fun x _ => tIndex3 x i) []

/-- Source `Rolling.last`. -/
def Rolling.last (r : Rolling) : Except String Tensor2 := r.loc (-1)

/-- Source `Rolling.first`. -/
def Rolling.first (r : Rolling) : Except String Tensor2 := r.loc 0

/-- Source `Rolling.last_nonnan`: `nanlast` along the window axis through the
chunk loop (the win-assert of `agg` is vacuous as no `others` are passed). -/
def Rolling.last_nonnan (r : Rolling) : Tensor2 :=
  r.aggSeq (fun x _ => nanlast3 x) []

/-- Source `Rolling.__init__` with an adjustment tensor: a plain engine over
the adjustment builds the unfolded adjustment factors and their last-known
(rightmost non-missing) value per row and time. -/
def Rolling.mkAdj (x : Tensor2) (win : ℕ) (adjustment : Tensor2) (multi : ℚ) :
    Rolling :=
  let base := Rolling.mk0 x win multi
  let radj := Rolling.mk0 adjustment win multi
  { base with
      adjustments := some radj.values
      adjustment_last := some radj.last_nonnan }

/-- NaN-propagating float addition. -/
def vadd : Val → Val → Val
  | some a, some b => some (a + b)
  | _, _ => none

/-- Plain (not NaN-aware) `Tensor.sum` along the window axis: any missing cell
makes the sum missing. -/
def fsum (l : List Val) : Val := l.foldr vadd (some 0)

/-- Source `Rolling.mean`: the plain window sum divided by the constant
`self.win` (not by a count of present cells). -/
def Rolling.mean (r : Rolling) : Except String Tensor2 :=
  r.agg (fun x _ =>
    x.map (fun row => row.map (fun wnd => vdiv (fsum wnd) (some (r.win : ℚ))))) []

/-- All-ones tensor of the shape of `x` (a uniformly-1 adjustment input). -/
def onesLike (x : Tensor2) : Tensor2 := x.map (fun row => row.map (fun _ => some 1))

/-- The full unchunked adjusted buffer, `adjusted(None, None)` in the source:
the whole row range. -/
def Rolling.adjustedFull (r : Rolling) : Tensor3 := r.adjusted 0 r.values.length

/-- The same-row key equality invariant of a Group Layout: any two row indices
stored in non-padded cells of one row of the index matrix carry equal keys. -/
def rowKeysEqual (keys : List ℤ) : Prop :=
  ∀ g a b ia ib,
    ((ParallelGroupBy.runsP keys).getD g []).getD a none = some ia →
    ((ParallelGroupBy.runsP keys).getD g []).getD b none = some ib →
    keys.getD ia 0 = keys.getD ib 0

/-! ### Helper lemmas: slices, adjacent pairs, flatten -/

theorem slice_append (l : List α) {s m e : ℕ} (h1 : s ≤ m) (h2 : m ≤ e) :
    slice s m l ++ slice m e l = slice s e l := by
  unfold slice
  rw [show e - s = (m - s) + (e - m) by omega, List.take_add]
  congr 2
  rw [List.drop_drop]
  congr 1
  omega

theorem slice_length (l : List α) (s e : ℕ) :
    (slice s e l).length = min (e - s) (l.length - s) := by
  simp [slice]

theorem slice_zero_length (l : List α) : slice 0 l.length l = l := by
  simp [slice]

theorem map_slice (f : α → β) (l : List α) (s e : ℕ) :
    slice s e (l.map f) = (slice s e l).map f := by
  simp [slice]

theorem chain_le_getLastD {s : ℕ} {bs : List ℕ} (h : List.Chain (· ≤ ·) s bs) :
    s ≤ bs.getLastD s := by
  induction bs generalizing s with
  | nil => exact le_refl s
  | cons b t ih =>
    cases h with
    | cons hsb ht =>
      rw [List.getLastD_cons]
      exact le_trans hsb (ih ht)

theorem flatten_slices (l : List α) :
    ∀ (bs : List ℕ) (s : ℕ), List.Chain (· ≤ ·) s bs →
      ((adjPairs (s :: bs)).map (fun p => slice p.1 p.2 l)).flatten =
        slice s (bs.getLastD s) l := by
  intro bs
  induction bs with
  | nil => intro s _; simp [adjPairs, slice]
  | cons b t ih =>
    intro s h
    cases h with
    | cons hsb ht =>
      rw [show adjPairs (s :: b :: t) = (s, b) :: adjPairs (b :: t) from rfl]
      simp only [List.map_cons, List.flatten_cons]
      rw [ih b ht, List.getLastD_cons]
      exact slice_append l hsb (chain_le_getLastD ht)

theorem adjPairs_mem {s : ℕ} {bs : List ℕ} (h : List.Chain (· ≤ ·) s bs) {p : ℕ × ℕ}
    (hp : p ∈ adjPairs (s :: bs)) : s ≤ p.1 ∧ p.1 ≤ p.2 ∧ p.2 ≤ bs.getLastD s := by
  induction bs generalizing s with
  | nil => simp [adjPairs] at hp
  | cons b t ih =>
    cases h with
    | cons hsb ht =>
      rw [show adjPairs (s :: b :: t) = (s, b) :: adjPairs (b :: t) from rfl,
        List.mem_cons] at hp
      rw [List.getLastD_cons]
      rcases hp with rfl | hp
      · exact ⟨le_refl _, hsb, chain_le_getLastD ht⟩
      · obtain ⟨h1, h2, h3⟩ := ih ht hp
        exact ⟨le_trans hsb h1, h2, h3⟩

theorem pyRange_eq (stop step : ℕ) (h1 : 1 ≤ step) (h2 : 1 ≤ stop) :
    pyRange stop step =
      0 :: (List.range ((stop + step - 1) / step - 1)).map (fun k => (k + 1) * step) := by
  have hcnt : 1 ≤ (stop + step - 1) / step := by
    rw [Nat.le_div_iff_mul_le (by omega)]
    omega
  unfold pyRange
  rw [show (stop + step - 1) / step = ((stop + step - 1) / step - 1) + 1 by omega,
    List.range_succ_eq_map]
  simp [Function.comp, Nat.succ_mul, Nat.add_comm]

theorem pyRange_mem_le (stop step : ℕ) (h1 : 1 ≤ step) {m : ℕ}
    (hm : m ∈ pyRange stop step) : m ≤ stop := by
  unfold pyRange at hm
  obtain ⟨k, hk, rfl⟩ := List.mem_map.mp hm
  rw [List.mem_range] at hk
  rcases Nat.eq_zero_or_pos stop with h0 | h2
  · subst h0
    rw [Nat.div_eq_of_lt (by omega)] at hk
    omega
  · have h3 : ((stop + step - 1) / step) * step ≤ stop + step - 1 :=
      Nat.div_mul_le_self _ _
    have h4 : (k + 1) * step ≤ ((stop + step - 1) / step) * step :=
      Nat.mul_le_mul_right _ (by omega)
    have h5 : k * step + step ≤ (stop - 1) + step := by
      have h6 : k * step + step ≤ stop + step - 1 := by
        calc k * step + step = (k + 1) * step := by ring
          _ ≤ _ := le_trans h4 h3
      omega
    have h7 := Nat.le_of_add_le_add_right h5
    omega

theorem pyRange_pairwise (stop step : ℕ) : (pyRange stop step).Pairwise (· ≤ ·) := by
  unfold pyRange
  refine List.Pairwise.map _ (fun a b hab => Nat.mul_le_mul_right _ (le_of_lt hab)) ?_
  exact List.pairwise_lt_range _

theorem boundary_chain (stop step : ℕ) (h1 : 1 ≤ step) (h2 : 1 ≤ stop) :
    ∃ bs, pyRange stop step ++ [stop] = 0 :: bs ∧
      List.Chain (· ≤ ·) 0 bs ∧ bs.getLastD 0 = stop := by
  obtain ⟨t, ht⟩ : ∃ t, pyRange stop step = 0 :: t := ⟨_, pyRange_eq stop step h1 h2⟩
  refine ⟨t ++ [stop], by rw [ht]; rfl, ?_, ?_⟩
  · have hpw : (0 :: (t ++ [stop])).Pairwise (· ≤ ·) := by
      have h3 : (pyRange stop step ++ [stop]).Pairwise (· ≤ ·) := by
        rw [List.pairwise_append]
        refine ⟨pyRange_pairwise stop step, List.pairwise_singleton _ _, ?_⟩
        intro a ha b hb
        rw [List.mem_singleton] at hb
        subst hb
        exact pyRange_mem_le _ step h1 ha
      rw [ht] at h3
      exact h3
    have hc : List.Chain' (· ≤ ·) (0 :: (t ++ [stop])) :=
      (List.chain'_iff_pairwise).mpr hpw
    exact hc
  · exact List.getLastD_concat _ _ _

theorem pyRange_zero_stop (step : ℕ) (h1 : 1 ≤ step) : pyRange 0 step = [] := by
  unfold pyRange
  rw [Nat.div_eq_of_lt (by omega), List.range_zero, List.map_nil]

theorem adjSlices_flatten (l : List α) (step : ℕ) (h1 : 1 ≤ step) :
    ((adjPairs (pyRange l.length step ++ [l.length])).map
      (fun p => slice p.1 p.2 l)).flatten = l := by
  rcases Nat.eq_zero_or_pos l.length with h0 | h2
  · rw [List.length_eq_zero] at h0
    subst h0
    rw [show ([] : List α).length = 0 from rfl, pyRange_zero_stop step h1]
    simp [adjPairs, slice]
  · obtain ⟨bs, hb, hchain, hlast⟩ := boundary_chain l.length step h1 h2
    rw [hb, flatten_slices l bs 0 hchain, hlast, slice_zero_length]

theorem adjSlices_mem {rows step : ℕ} (h1 : 1 ≤ step) {p : ℕ × ℕ}
    (hp : p ∈ adjPairs (pyRange rows step ++ [rows])) : p.1 ≤ p.2 ∧ p.2 ≤ rows := by
  rcases Nat.eq_zero_or_pos rows with h0 | h2
  · subst h0
    rw [pyRange_zero_stop step h1] at hp
    simp [adjPairs] at hp
  · obtain ⟨bs, hb, hchain, hlast⟩ := boundary_chain rows step h1 h2
    rw [hb] at hp
    obtain ⟨_, h3, h4⟩ := adjPairs_mem hchain hp
    exact ⟨h3, hlast ▸ h4⟩

theorem mkSplits_eq (rows nelem : ℕ) (multi : ℚ) :
    ∃ step, 1 ≤ step ∧
      mkSplits rows nelem multi = adjPairs (pyRange rows step ++ [rows]) :=
  ⟨max (Int.toNat ⌊(rows : ℚ) / (((nelem : ℚ) / 1024 ^ 3) * multi)⌋) 1,
    Nat.le_max_right _ 1, rfl⟩

theorem mkSplits_flatten (l : List α) (nelem : ℕ) (multi : ℚ) :
    ((mkSplits l.length nelem multi).map (fun p => slice p.1 p.2 l)).flatten = l := by
  obtain ⟨step, h1, heq⟩ := mkSplits_eq l.length nelem multi
  rw [heq]
  exact adjSlices_flatten l step h1

theorem mkSplits_mem {rows nelem : ℕ} {multi : ℚ} {p : ℕ × ℕ}
    (hp : p ∈ mkSplits rows nelem multi) : p.1 ≤ p.2 ∧ p.2 ≤ rows := by
  obtain ⟨step, h1, heq⟩ := mkSplits_eq rows nelem multi
  rw [heq] at hp
  exact adjSlices_mem h1 hp

theorem mkSplits_flatten_any (R : List α) (rows nelem : ℕ) (multi : ℚ) :
    ((mkSplits rows nelem multi).map (fun p => slice p.1 p.2 R)).flatten =
      slice 0 rows R := by
  obtain ⟨step, h1, heq⟩ := mkSplits_eq rows nelem multi
  rw [heq]
  rcases Nat.eq_zero_or_pos rows with h0 | h2
  · subst h0
    rw [pyRange_zero_stop step h1]
    simp [adjPairs, slice]
  · obtain ⟨bs, hb, hchain, hlast⟩ := boundary_chain rows step h1 h2
    rw [hb, flatten_slices R bs 0 hchain, hlast]

/-! ### Helper lemmas: zipWith3 and adjusted buffers -/

theorem zipWith3_take (f : α → β → γ → δ) (a : List α) (b : List β) (c : List γ)
    (n : ℕ) :
    (List.zipWith3 f a b c).take n =
      List.zipWith3 f (a.take n) (b.take n) (c.take n) := by
  induction a generalizing b c n with
  | nil => simp [List.zipWith3]
  | cons x xs ih =>
    cases b with
    | nil => simp [List.zipWith3]
    | cons y ys =>
      cases c with
      | nil => simp [List.zipWith3]
      | cons z zs =>
        cases n with
        | zero => simp [List.zipWith3]
        | succ m => simp [List.zipWith3, ih]

theorem zipWith3_drop (f : α → β → γ → δ) (a : List α) (b : List β) (c : List γ)
    (n : ℕ) :
    (List.zipWith3 f a b c).drop n =
      List.zipWith3 f (a.drop n) (b.drop n) (c.drop n) := by
  induction a generalizing b c n with
  | nil => simp [List.zipWith3]
  | cons x xs ih =>
    cases b with
    | nil => simp [List.zipWith3]
    | cons y ys =>
      cases c with
      | nil => simp [List.zipWith3]
      | cons z zs =>
        cases n with
        | zero => simp
        | succ m => simpa [List.zipWith3] using ih ys zs m

theorem slice_zipWith3 (f : α → β → γ → δ) (a : List α) (b : List β) (c : List γ)
    (s e : ℕ) :
    slice s e (List.zipWith3 f a b c) =
      List.zipWith3 f (slice s e a) (slice s e b) (slice s e c) := by
  simp [slice, zipWith3_take, zipWith3_drop]

theorem zipWith3_length (f : α → β → γ → δ) (a : List α) (b : List β) (c : List γ) :
    (List.zipWith3 f a b c).length = min a.length (min b.length c.length) := by
  induction a generalizing b c with
  | nil => simp [List.zipWith3]
  | cons x xs ih =>
    cases b with
    | nil => simp [List.zipWith3]
    | cons y ys =>
      cases c with
      | nil => simp [List.zipWith3]
      | cons z zs => simp [List.zipWith3, ih, Nat.succ_min_succ]

theorem slice_of_slice_zero (l : List α) {s e m : ℕ} (h : e ≤ m) :
    slice s e (slice 0 m l) = slice s e l := by
  simp only [slice, Nat.sub_zero, List.drop_zero]
  rw [List.drop_take, List.take_take]
  congr 1
  omega

theorem adjustedFull_length_le (r : Rolling) :
    r.adjustedFull.length ≤ r.values.length := by
  unfold Rolling.adjustedFull Rolling.adjusted
  cases r.adjustments with
  | none => cases r.adjustment_last <;> simp [slice_length]
  | some adj =>
    cases r.adjustment_last with
    | none => simp [slice_length]
    | some lastAdj => simp [zipWith3_length, slice_length]

theorem adjusted_eq_slice (r : Rolling) {s e : ℕ} (he : e ≤ r.values.length) :
    r.adjusted s e = slice s e r.adjustedFull := by
  unfold Rolling.adjustedFull Rolling.adjusted
  cases r.adjustments with
  | none =>
    cases r.adjustment_last <;>
      rw [slice_of_slice_zero _ he]
  | some adj =>
    cases r.adjustment_last with
    | none => rw [slice_of_slice_zero _ he]
    | some lastAdj =>
      rw [slice_zipWith3, slice_of_slice_zero _ he, slice_of_slice_zero _ he,
        slice_of_slice_zero _ he]

/-- The chunk loop of `agg` computes the unchunked result: the chunk ranges
come from `mkSplits`, `op` commutes with row slicing, and all engines share the
row count. -/
theorem aggSeq_unchunked (r : Rolling) (op : Tensor3 → List Tensor3 → Tensor2)
    (others : List Rolling) (ne : ℕ) (mu : ℚ)
    (hsplit : r.split = mkSplits r.values.length ne mu)
    (hlen : ∀ o ∈ others, o.values.length = r.values.length)
    (heqv : ∀ s e, op (slice s e r.adjustedFull)
        ((others.map Rolling.adjustedFull).map (fun b => slice s e b)) =
      slice s e (op r.adjustedFull (others.map Rolling.adjustedFull))) :
    r.aggSeq op others = op r.adjustedFull (others.map Rolling.adjustedFull) := by
  have hchunk : ∀ p ∈ r.split,
      op (r.adjusted p.1 p.2) (others.map (fun o => o.adjusted p.1 p.2)) =
        slice p.1 p.2 (op r.adjustedFull (others.map Rolling.adjustedFull)) := by
    intro p hp
    rw [hsplit] at hp
    have hb := mkSplits_mem hp
    rw [adjusted_eq_slice r hb.2]
    have hmap : others.map (fun o => o.adjusted p.1 p.2) =
        (others.map Rolling.adjustedFull).map (fun b => slice p.1 p.2 b) := by
      rw [List.map_map]
      apply List.map_congr_left
      intro o ho
      exact adjusted_eq_slice o (by rw [hlen o ho]; exact hb.2)
    rw [hmap, heqv]
  have hfix : op r.adjustedFull (others.map Rolling.adjustedFull) =
      List.take r.values.length
        (op r.adjustedFull (others.map Rolling.adjustedFull)) := by
    have h0 := heqv 0 r.values.length
    have hA : slice 0 r.values.length r.adjustedFull = r.adjustedFull := by
      simp only [slice, Nat.sub_zero, List.drop_zero]
      exact List.take_of_length_le (adjustedFull_length_le r)
    have hB : (others.map Rolling.adjustedFull).map
        (fun b => slice 0 r.values.length b) = others.map Rolling.adjustedFull := by
      rw [List.map_map]
      apply List.map_congr_left
      intro o ho
      simp only [Function.comp, slice, Nat.sub_zero, List.drop_zero]
      exact List.take_of_length_le (le_trans (adjustedFull_length_le o) (le_of_eq (hlen o ho)))
    rw [hA, hB] at h0
    simpa [slice] using h0
  unfold Rolling.aggSeq
  rw [List.map_congr_left hchunk, hsplit, mkSplits_flatten_any]
  simp only [slice, Nat.sub_zero, List.drop_zero]
  exact hfix.symm

/-! ### NaN-reduction helper lemmas -/

theorem nansumRow_eq (row : List Val) : nansumRow row = (row.filterMap id).sum := by
  induction row with
  | nil => rfl
  | cons x xs ih =>
    cases x with
    | none => simpa [nansumRow, List.filterMap_cons] using ih
    | some a => simpa [nansumRow, List.filterMap_cons] using congrArg (a + ·) ih

theorem nnCount_eq (row : List Val) : nnCount row = (row.filterMap id).length := by
  induction row with
  | nil => rfl
  | cons x xs ih =>
    cases x with
    | none => simpa [nnCount, List.filterMap_cons] using ih
    | some a =>
      rw [show nnCount (some a :: xs) = nnCount xs + 1 by
            simp [nnCount, List.filter_cons],
        @List.filterMap_cons_some Val ℚ id (some a) xs a rfl, List.length_cons, ih]

theorem nanmaxRow_eq (row : List Val) :
    nanmaxRow row =
      ((row.filterMap id).map (fun (q : ℚ) => (q : WithBot ℚ))).foldr max ⊥ := by
  induction row with
  | nil => rfl
  | cons x xs ih =>
    cases x with
    | none =>
      rw [show nanmaxRow (none :: xs) = max ⊥ (nanmaxRow xs) from rfl,
        @List.filterMap_cons_none Val ℚ id none xs rfl, ih]
      exact max_eq_right bot_le
    | some a =>
      rw [show nanmaxRow (some a :: xs) = max (a : WithBot ℚ) (nanmaxRow xs) from rfl,
        @List.filterMap_cons_some Val ℚ id (some a) xs a rfl, ih, List.map_cons,
        List.foldr_cons]

theorem filterMap_id_replicate_none (k : ℕ) :
    (List.replicate k (none : Val)).filterMap id = [] := by
  induction k with
  | zero => rfl
  | succ m ih => simp [List.replicate_succ, List.filterMap_cons, ih]

/-! ### Claim theorems -/

/-- C3: for every chunk-size configuration (any memory-budget tuning constant,
hence any `mkSplits` chunking of the rows) and every reduction operator `op`
(one that commutes with row slicing, as every per-row window reduction does),
`Rolling.agg(op, others...)` produces exactly the result of applying `op` once
to the full unchunked adjusted buffers; chunk results are concatenated along
the row axis in chunk order inside `aggSeq`. -/
theorem c3_chunked_agg_equiv (r : Rolling) (others : List Rolling)
    (op : Tensor3 → List Tensor3 → Tensor2) (ne : ℕ) (mu : ℚ)
    (hsplit : r.split = mkSplits r.values.length ne mu)
    (hwin : ∀ o ∈ others, o.win = r.win)
    (hlen : ∀ o ∈ others, o.values.length = r.values.length)
    (heqv : ∀ s e, op (slice s e r.adjustedFull)
        ((others.map Rolling.adjustedFull).map (fun b => slice s e b)) =
      slice s e (op r.adjustedFull (others.map Rolling.adjustedFull))) :
    r.agg op others = .ok (op r.adjustedFull (others.map Rolling.adjustedFull)) := by
  unfold Rolling.agg
  rw [if_pos, aggSeq_unchunked r op others ne mu hsplit hlen heqv]
  rw [List.all_eq_true]
  intro o ho
  exact beq_iff_eq.mpr (hwin o ho)

/-- Witness for C3 at a concrete engine, empty `others`, and the rolling-sum
operator. -/
theorem c3_witness :
    (Rolling.mk0 [[some (1 : ℚ), some 2]] 1 64).agg
        (fun x _ => x.map (fun row => row.map fsum)) [] =
      .ok ((Rolling.mk0 [[some (1 : ℚ), some 2]] 1 64).adjustedFull.map
        (fun row => row.map fsum)) := by
  have h := c3_chunked_agg_equiv (Rolling.mk0 [[some (1 : ℚ), some 2]] 1 64) []
    (fun x _ => x.map (fun row => row.map fsum))
    (nelement3 (unfold [[some (1 : ℚ), some 2]] 1 none)) 64
    rfl (fun o ho => absurd ho (List.not_mem_nil o))
    (fun o ho => absurd ho (List.not_mem_nil o))
    (fun s e => (map_slice (fun row => row.map fsum)
      (Rolling.mk0 [[some (1 : ℚ), some 2]] 1 64).adjustedFull s e).symm)
  exact h

/-- C5: the source intends `split` to reject integral value buffers
(`TypeUnsupported`), but the assert tests `ret.type` — the bound method
object, never a dtype — so it passes for every dtype and an integral buffer is
not rejected; this contradicts the assert's own message and the spec.  The
model shows the guard passing on `int32` (a `code_bug` for the claim), while
the spec-modelled guard `specTypeSupported` rejects it. -/
theorem c5_dtype_assert_dead :
    (∀ d : DType, splitAssertPasses d = true) ∧
    splitChecked [0, 1] DType.int32 [some 1, some 2] =
      .ok (ParallelGroupBy.split [0, 1] [some 1, some 2]) ∧
    specTypeSupported DType.int32 = false :=
  ⟨fun _ => rfl, rfl, rfl⟩

/-- C6: `revert` on a buffer whose shape differs from `(groups, width)` fails
with an error carrying the actual shape, the expected shape and the label, and
the distinct multiple-outputs hint is selected exactly when the first two
dimensions match; a buffer of exactly the expected shape never fails. -/
theorem c6_revert_shape_errors (keys : List ℤ) (t : STensor) (label : String) :
    (t.shape ≠ ParallelGroupBy.dataShape keys →
      ∃ err : ParallelGroupBy.RevertErr,
        ParallelGroupBy.revert keys t label = .error err ∧
        err.actualShape = t.shape ∧
        err.expectedShape = ParallelGroupBy.dataShape keys ∧
        err.label = label ∧
        (err.multiOutputHint = true ↔
          t.shape.take 2 = ParallelGroupBy.dataShape keys)) ∧
    (t.shape = ParallelGroupBy.dataShape keys →
      ∃ v, ParallelGroupBy.revert keys t label = .ok v) := by
  constructor
  · intro h
    unfold ParallelGroupBy.revert
    by_cases h2 : t.shape.take 2 = ParallelGroupBy.dataShape keys
    · rw [if_pos h, if_pos h2]
      exact ⟨_, rfl, rfl, rfl, rfl, by simp [h2]⟩
    · rw [if_pos h, if_neg h2]
      exact ⟨_, rfl, rfl, rfl, rfl, by simp [h2]⟩
  · intro h
    unfold ParallelGroupBy.revert
    rw [if_neg (not_not_intro h)]
    exact ⟨_, rfl⟩

/-- Witness for C6: a rank-3 buffer whose two leading dimensions match the
layout of keys `[0, 1]` triggers the multiple-outputs hint, and an
exactly-shaped buffer succeeds. -/
theorem c6_witness :
    ([2, 1, 3] ≠ ParallelGroupBy.dataShape [0, 1] ∧
      ∃ err : ParallelGroupBy.RevertErr,
        ParallelGroupBy.revert [0, 1] ⟨[2, 1, 3], []⟩ "f" = .error err ∧
        err.multiOutputHint = true) ∧
    ∃ v, ParallelGroupBy.revert [0, 1] ⟨[2, 1], [some 5, some 6]⟩ "g" = .ok v := by
  constructor
  · refine ⟨by with_unfolding_all decide, ?_⟩
    obtain ⟨err, h1, _, _, _, h5⟩ :=
      (c6_revert_shape_errors [0, 1] ⟨[2, 1, 3], []⟩ "f").1
        (by with_unfolding_all decide)
    exact ⟨err, h1, h5.mpr (by with_unfolding_all decide)⟩
  · exact (c6_revert_shape_errors [0, 1] ⟨[2, 1], [some 5, some 6]⟩ "g").2
      (by with_unfolding_all decide)

/-- C7: on `[[1, NaN, 3], [NaN, NaN, NaN]]` reduced along the row axis,
`nanmean` gives `[2, NaN]`, `nansum` gives `[4, 0]`, `nanmax` gives
`[3, -inf]`; in general `nansum`/`nanmean` treat missing cells as absent
(`nanmean` divides by the count of present cells), `nanmax` replaces missing
cells by `-inf` before reducing, and an all-missing row yields a defined
missing (resp. `-inf`, resp. `0`) result. -/
theorem c7_nan_reductions :
    nanmean [[some 1, none, some 3], [none, none, none]] = [some 2, none] ∧
    nansum [[some 1, none, some 3], [none, none, none]] = [4, 0] ∧
    nanmax [[some 1, none, some 3], [none, none, none]] = [(3 : WithBot ℚ), ⊥] ∧
    (∀ row : List Val, nansumRow row = (row.filterMap id).sum) ∧
    (∀ row : List Val, nanmeanRow row =
      if (row.filterMap id).length = 0 then none
      else some ((row.filterMap id).sum / ((row.filterMap id).length : ℚ))) ∧
    (∀ row : List Val,
      nanmaxRow row =
        ((row.filterMap id).map (fun (q : ℚ) => (q : WithBot ℚ))).foldr max ⊥) ∧
    (∀ k : ℕ, nanmeanRow (List.replicate k none) = none ∧
      nanmaxRow (List.replicate k none) = ⊥ ∧
      nansumRow (List.replicate k none) = 0) := by
  refine ⟨by with_unfolding_all decide, by with_unfolding_all decide,
    by with_unfolding_all decide, nansumRow_eq, ?_, nanmaxRow_eq, ?_⟩
  · intro row
    rw [nanmeanRow, nnCount_eq, nansumRow_eq]
  · intro k
    refine ⟨?_, ?_, ?_⟩
    · rw [nanmeanRow, nnCount_eq, filterMap_id_replicate_none]
      rfl
    · rw [nanmaxRow_eq, filterMap_id_replicate_none]
      rfl
    · rw [nansumRow_eq, filterMap_id_replicate_none]
      rfl

/-! ### Rolling helper lemmas -/

theorem getD_map (f : α → β) (l : List α) (r : ℕ) (d : β) (d' : α)
    (hr : r < l.length) : (l.map f).getD r d = f (l.getD r d') := by
  rw [List.getD_eq_getElem _ _ (by simpa using hr), List.getElem_map,
    List.getD_eq_getElem _ _ hr]

theorem length_unfold (x : Tensor2) (win : ℕ) (fill : Val) :
    (unfold x win fill).length = x.length := List.length_map _ _

theorem adjustedFull_mk0 (x : Tensor2) (win : ℕ) (multi : ℚ) :
    (Rolling.mk0 x win multi).adjustedFull = unfold x win none := by
  have h : (Rolling.mk0 x win multi).adjustedFull =
      slice 0 (unfold x win none).length (unfold x win none) := rfl
  rw [h, slice_zero_length]

theorem mk0_split_eq (x : Tensor2) (win : ℕ) (multi : ℚ) :
    (Rolling.mk0 x win multi).split =
      mkSplits (Rolling.mk0 x win multi).values.length
        (nelement3 (unfold x win none)) multi := by
  show mkSplits x.length (nelement3 (unfold x win none)) multi =
    mkSplits (unfold x win none).length (nelement3 (unfold x win none)) multi
  rw [length_unfold]

/-- A per-row operator (`fun y _ => y.map g`) through the chunk loop of a
plain engine equals its unchunked application. -/
theorem aggSeq_rowmap (x : Tensor2) (win : ℕ) (multi : ℚ)
    (g : List (List Val) → List Val) :
    (Rolling.mk0 x win multi).aggSeq (fun y _ => y.map g) [] =
      (unfold x win none).map g := by
  have h := aggSeq_unchunked (Rolling.mk0 x win multi) (fun y _ => y.map g) []
    (nelement3 (unfold x win none)) multi (mk0_split_eq x win multi)
    (fun o ho => absurd ho (List.not_mem_nil o))
    (fun s e => (map_slice g (Rolling.mk0 x win multi).adjustedFull s e).symm)
  rw [adjustedFull_mk0] at h
  exact h

theorem agg_rowmap (x : Tensor2) (win : ℕ) (multi : ℚ)
    (g : List (List Val) → List Val) :
    (Rolling.mk0 x win multi).agg (fun y _ => y.map g) [] =
      .ok ((unfold x win none).map g) := by
  unfold Rolling.agg
  rw [show (([] : List Rolling).all fun o => o.win == (Rolling.mk0 x win multi).win)
      = true from rfl, if_pos rfl, aggSeq_rowmap]

theorem fsum_of_none_mem {l : List Val} (h : (none : Val) ∈ l) : fsum l = none := by
  induction l with
  | nil => cases h
  | cons x xs ih =>
    rcases List.mem_cons.mp h with rfl | hx
    · rfl
    · show vadd x (fsum xs) = none
      rw [ih hx]
      cases x <;> rfl

theorem unfold_getD_row (x : Tensor2) (win : ℕ) (fill : Val) {r : ℕ}
    (hr : r < x.length) :
    (unfold x win fill).getD r [] =
      (List.range (x.getD r []).length).map
        (fun t => slice t (t + win) (List.replicate (win - 1) fill ++ x.getD r [])) := by
  unfold unfold
  rw [getD_map _ x r [] [] hr]

theorem slice_getElem (l : List α) {s e k : ℕ} (h : k < (slice s e l).length)
    (h2 : s + k < l.length) : (slice s e l)[k] = l[s + k] := by
  unfold slice at h ⊢
  rw [List.getElem_take, List.getElem_drop]

theorem slice_getD (l : List α) (d : α) {s e k : ℕ} (h : k < (slice s e l).length) :
    (slice s e l).getD k d = l.getD (s + k) d := by
  have hlen := slice_length l s e
  have h2 : s + k < l.length := by omega
  rw [List.getD_eq_getElem _ _ h, List.getD_eq_getElem _ _ h2]
  unfold slice
  rw [List.getElem_take, List.getElem_drop]

/-- C10: `mean()` is the plain NaN-propagating window sum divided by the
constant `win` (not by a count of present cells); consequently a cell whose
window reaches into the left padding (`t < win - 1`), or whose window covers a
missing input cell, is missing in the output. -/
theorem c10_mean_plain_sum (x : Tensor2) (win : ℕ) (multi : ℚ) (hw : 0 < win) :
    (Rolling.mk0 x win multi).mean =
      .ok ((unfold x win none).map (fun row =>
        row.map (fun wnd => vdiv (fsum wnd) (some (win : ℚ))))) ∧
    (∀ r t, r < x.length → t < (x.getD r []).length →
      (t < win - 1 ∨ ∃ u, u ≤ t ∧ t < u + win ∧ (x.getD r []).getD u none = none) →
      (((unfold x win none).map (fun row =>
        row.map (fun wnd => vdiv (fsum wnd) (some (win : ℚ))))).getD r []).getD t
          none = none) := by
  constructor
  · exact agg_rowmap x win multi
      (fun row => row.map (fun wnd => vdiv (fsum wnd) (some (win : ℚ))))
  · intro r t hr ht hcase
    have hr' : r < (unfold x win none).length := by
      rw [length_unfold]; exact hr
    rw [getD_map _ (unfold x win none) r [] [] hr', unfold_getD_row x win none hr,
      List.map_map]
    have ht' : t < (List.range (x.getD r []).length).length := by
      simpa using ht
    rw [getD_map _ _ t none 0 ht', List.getD_eq_getElem _ _ ht', List.getElem_range]
    show vdiv (fsum (slice t (t + win)
      (List.replicate (win - 1) (none : Val) ++ x.getD r []))) (some (win : ℚ)) = none
    have hLlen : (List.replicate (win - 1) (none : Val) ++ x.getD r []).length =
        (win - 1) + (x.getD r []).length := by
      rw [List.length_append, List.length_replicate]
    have hwlen : (slice t (t + win)
        (List.replicate (win - 1) (none : Val) ++ x.getD r [])).length = win := by
      rw [slice_length]
      omega
    suffices hmem : (none : Val) ∈ slice t (t + win)
        (List.replicate (win - 1) (none : Val) ++ x.getD r []) by
      rw [fsum_of_none_mem hmem]; rfl
    have key : ∀ k, k < win →
        (slice t (t + win) (List.replicate (win - 1) (none : Val) ++ x.getD r [])).getD
          k (some 0) = none →
        (none : Val) ∈ slice t (t + win)
          (List.replicate (win - 1) (none : Val) ++ x.getD r []) := by
      intro k hk hval
      have hk' : k < (slice t (t + win)
          (List.replicate (win - 1) (none : Val) ++ x.getD r [])).length := by omega
      rw [List.getD_eq_getElem _ _ hk'] at hval
      exact List.mem_iff_getElem.mpr ⟨k, hk', hval⟩
    rcases hcase with hpad | ⟨u, hu1, hu2, hu3⟩
    · refine key 0 hw ?_
      rw [slice_getD _ _ (by omega), Nat.add_zero,
        List.getD_append _ _ _ t (by rw [List.length_replicate]; omega),
        List.getD_eq_getElem _ _ (by rw [List.length_replicate]; omega),
        List.getElem_replicate]
    · refine key (u + (win - 1) - t) (by omega) ?_
      rw [slice_getD _ _ (by omega),
        show t + (u + (win - 1) - t) = (win - 1) + u by omega,
        List.getD_append_right _ _ _ _ (by rw [List.length_replicate]; omega),
        List.length_replicate,
        show (win - 1) + u - (win - 1) = u by omega,
        List.getD_eq_getElem _ _ (show u < (x.getD r []).length by omega)]
      rw [List.getD_eq_getElem _ _ (show u < (x.getD r []).length by omega)] at hu3
      exact hu3

/-- Witness for C10 at `x = [[1, NaN, 3]]`, `win = 2`: the unchunked equation
holds, the left-padded cell `t = 0` is missing, and the cell `t = 2`, whose
window covers the missing input at `u = 1`, is missing. -/
theorem c10_witness :
    ((Rolling.mk0 [[some 1, none, some 3]] 2 64).mean =
      .ok ((unfold [[some 1, none, some 3]] 2 none).map (fun row =>
        row.map (fun wnd => vdiv (fsum wnd) (some (2 : ℚ)))))) ∧
    ((((unfold [[some 1, none, some 3]] 2 none).map (fun row =>
        row.map (fun wnd => vdiv (fsum wnd) (some (2 : ℚ))))).getD 0 []).getD 0
          none = none) ∧
    ((((unfold [[some 1, none, some 3]] 2 none).map (fun row =>
        row.map (fun wnd => vdiv (fsum wnd) (some (2 : ℚ))))).getD 0 []).getD 2
          none = none) := by
  obtain ⟨h1, h2⟩ := c10_mean_plain_sum [[some 1, none, some 3]] 2 64 (by decide)
  refine ⟨h1, ?_, ?_⟩
  · exact h2 0 0 (by decide) (by decide) (Or.inl (by decide))
  · exact h2 0 2 (by decide) (by decide)
      (Or.inr ⟨1, by decide, by decide, by decide⟩)

/-! ### Helper lemmas for `nanlast` and adjustment neutrality -/

theorem argminQ_cons (x : ℚ) (xs : List ℚ) :
    argminQ (x :: xs) =
      if x ≤ xs.getD (argminQ xs) x then 0 else argminQ xs + 1 := rfl

theorem argminQ_lt_length : ∀ {l : List ℚ}, l ≠ [] → argminQ l < l.length := by
  intro l
  induction l with
  | nil => intro h; exact absurd rfl h
  | cons x xs ih =>
    intro _
    rw [argminQ_cons]
    by_cases hc : x ≤ xs.getD (argminQ xs) x
    · rw [if_pos hc]
      simp
    · rw [if_neg hc]
      have hxs : xs ≠ [] := by
        intro h
        subst h
        exact hc (le_refl x)
      have := ih hxs
      simpa using Nat.succ_lt_succ this

theorem argminQ_le (l : List ℚ) (d : ℚ) :
    ∀ k, k < l.length → l.getD (argminQ l) d ≤ l.getD k d := by
  induction l with
  | nil => intro k hk; simp at hk
  | cons x xs ih =>
    intro k hk
    rw [argminQ_cons]
    by_cases hc : x ≤ xs.getD (argminQ xs) x
    · rw [if_pos hc]
      cases k with
      | zero => exact le_refl _
      | succ m =>
        have hxs : xs ≠ [] := by
          intro h
          subst h
          simp at hk
        have hlt := argminQ_lt_length hxs
        have h1 : xs.getD (argminQ xs) x = xs.getD (argminQ xs) d := by
          rw [List.getD_eq_getElem _ _ hlt, List.getD_eq_getElem _ _ hlt]
        have h2 : x ≤ xs.getD (argminQ xs) d := h1 ▸ hc
        calc (x :: xs).getD 0 d = x := rfl
          _ ≤ xs.getD (argminQ xs) d := h2
          _ ≤ xs.getD m d := ih m (by simpa using hk)
          _ = (x :: xs).getD (m + 1) d := rfl
    · rw [if_neg hc]
      have hxs : xs ≠ [] := by
        intro h
        subst h
        exact hc (le_refl x)
      have hlt := argminQ_lt_length hxs
      have h1 : xs.getD (argminQ xs) x = xs.getD (argminQ xs) d := by
        rw [List.getD_eq_getElem _ _ hlt, List.getD_eq_getElem _ _ hlt]
      push_neg at hc
      cases k with
      | zero =>
        show xs.getD (argminQ xs) d ≤ x
        rw [← h1]
        exact le_of_lt hc
      | succ m =>
        show xs.getD (argminQ xs) d ≤ xs.getD m d
        exact ih m (by simpa using hk)

theorem linspaceDec_bounds (m k : ℕ) (hk : k < m) :
    0 ≤ linspaceDec m k ∧ linspaceDec m k ≤ 1 / 10 := by
  unfold linspaceDec
  by_cases hm : m ≤ 1
  · rw [if_pos hm]
    norm_num
  · rw [if_neg hm]
    push_neg at hm
    have hm1 : (1 : ℚ) ≤ (m : ℚ) - 1 := by
      have h2 : (2 : ℚ) ≤ (m : ℚ) := by exact_mod_cast hm
      linarith
    have hk1 : (k : ℚ) ≤ (m : ℚ) - 1 := by
      have h2 : (k : ℚ) + 1 ≤ (m : ℚ) := by exact_mod_cast hk
      linarith
    have hk0 : (0 : ℚ) ≤ (k : ℚ) := Nat.cast_nonneg k
    constructor
    · rw [sub_nonneg, div_le_iff₀ (by linarith)]
      linarith
    · have hp : 0 ≤ (1 / 10 : ℚ) * k / ((m : ℚ) - 1) := by positivity
      linarith

/-- The right-most-non-missing gather of `nanlast` on a window that is `p`
missing cells followed by `q ≥ 1` ones: the argmin of the indicator-plus-weight
mask lands in the trailing block, whose cells are all `1`. -/
theorem nanlastRow_pad_ones (p q : ℕ) (hq : 1 ≤ q) :
    nanlastRow (List.replicate p (none : Val) ++ List.replicate q (some 1)) =
      some 1 := by
  have hrowlen : (List.replicate p (none : Val) ++
      List.replicate q (some (1 : ℚ))).length = p + q := by simp
  unfold nanlastRow
  rw [hrowlen]
  set msk := List.zipWith (fun x wk => (if x.isNone then (1 : ℚ) else 0) + wk)
    (List.replicate p (none : Val) ++ List.replicate q (some (1 : ℚ)))
    ((List.range (p + q)).map (linspaceDec (p + q))) with hmsk
  have hmlen : msk.length = p + q := by
    rw [hmsk, List.length_zipWith]
    simp
  have hcell : ∀ k, k < p + q →
      msk.getD k 0 = (if k < p then (1 : ℚ) else 0) + linspaceDec (p + q) k := by
    intro k hk
    have hstep : msk.getD k 0 =
        (List.zipWith (fun x wk => (if x.isNone then (1 : ℚ) else 0) + wk)
          (List.replicate p (none : Val) ++ List.replicate q (some (1 : ℚ)))
          ((List.range (p + q)).map (linspaceDec (p + q)))).getD k 0 := by
      rw [hmsk]
    rw [hstep, List.getD_eq_getElem _ _ (by rw [List.length_zipWith]; simp; omega),
      List.getElem_zipWith]
    congr 1
    · rw [List.getElem_append]
      by_cases hkp : k < p
      · rw [dif_pos (by rw [List.length_replicate]; exact hkp),
          List.getElem_replicate, if_pos hkp]
        rfl
      · rw [dif_neg (by rw [List.length_replicate]; exact hkp),
          List.getElem_replicate, if_neg hkp]
        rfl
    · rw [List.getElem_map, List.getElem_range]
  have hne : msk ≠ [] := by
    intro h
    rw [h] at hmlen
    simp at hmlen
    omega
  have hj := argminQ_lt_length hne
  rw [hmlen] at hj
  have hlastcell : msk.getD (p + q - 1) 0 = linspaceDec (p + q) (p + q - 1) := by
    rw [hcell _ (by omega), if_neg (by omega), zero_add]
  have hmin : msk.getD (argminQ msk) 0 ≤ 1 / 10 := by
    calc msk.getD (argminQ msk) 0 ≤ msk.getD (p + q - 1) 0 :=
          argminQ_le msk 0 (p + q - 1) (by omega)
      _ = linspaceDec (p + q) (p + q - 1) := hlastcell
      _ ≤ 1 / 10 := (linspaceDec_bounds (p + q) (p + q - 1) (by omega)).2
  have hjp : ¬ argminQ msk < p := by
    intro hcon
    have hc := hcell (argminQ msk) hj
    rw [if_pos hcon] at hc
    have hb := (linspaceDec_bounds (p + q) (argminQ msk) hj).1
    rw [hc] at hmin
    linarith
  rw [List.getD_append_right _ _ _ _ (by rw [List.length_replicate]; omega),
    List.length_replicate, List.getD_eq_getElem _ _ (by simp; omega),
    List.getElem_replicate]

/-- A sliding window over a left-padded all-ones row is a block of fills
followed by a nonempty block of ones. -/
theorem slice_window_ones (T win t : ℕ) (ht : t < T) :
    slice t (t + win)
        (List.replicate (win - 1) (none : Val) ++ List.replicate T (some 1)) =
      List.replicate ((win - 1) - t) (none : Val) ++
        List.replicate (win - ((win - 1) - t)) (some 1) := by
  by_cases htp : t ≤ win - 1
  · unfold slice
    rw [List.drop_append_of_le_length (by rw [List.length_replicate]; exact htp),
      List.drop_replicate, show t + win - t = win by omega,
      List.take_append_eq_append_take, List.take_replicate, List.length_replicate,
      List.take_replicate]
    congr 1
    · congr 1
      omega
    · congr 1
      omega
  · push_neg at htp
    rw [show (win - 1) - t = 0 by omega, List.replicate_zero, List.nil_append,
      Nat.sub_zero]
    unfold slice
    rw [show t + win - t = win by omega]
    have hd : List.drop t
        (List.replicate (win - 1) (none : Val) ++ List.replicate T (some 1)) =
        List.drop (t - (win - 1)) (List.replicate T (some (1 : ℚ))) := by
      conv_lhs => rw [show t =
        (List.replicate (win - 1) (none : Val)).length + (t - (win - 1)) by
          rw [List.length_replicate]; omega]
      exact List.drop_append _
    rw [hd, List.drop_replicate, List.take_replicate]
    congr 1
    omega

theorem vdiv_one (c : Val) : vdiv c (some 1) = c := by
  cases c with
  | none => rfl
  | some a => simp [vdiv]

theorem vmul_one (c : Val) : vmul c (some 1) = c := by
  cases c with
  | none => rfl
  | some a => simp [vmul]

theorem vmul_none_left (c : Val) : vmul none c = none := by
  cases c <;> rfl

theorem zipWith3_map_same (f : α₁ → α₂ → α₃ → β) (g1 : α → α₁) (g2 : α → α₂)
    (g3 : α → α₃) (l : List α) :
    List.zipWith3 f (l.map g1) (l.map g2) (l.map g3) =
      l.map (fun a => f (g1 a) (g2 a) (g3 a)) := by
  induction l with
  | nil => rfl
  | cons x xs ih => simp [List.zipWith3, ih]

/-- The `last_nonnan` of an all-ones engine is all ones: every window ends in
a present `1`, and `nanlast` gathers it. -/
theorem last_nonnan_ones (x : Tensor2) (win : ℕ) (multi : ℚ) (hw : 0 < win) :
    (Rolling.mk0 (onesLike x) win multi).last_nonnan = onesLike x := by
  have h : (Rolling.mk0 (onesLike x) win multi).last_nonnan =
      (unfold (onesLike x) win none).map (fun row => row.map nanlastRow) :=
    aggSeq_rowmap (onesLike x) win multi (fun row => row.map nanlastRow)
  rw [h]
  unfold unfold onesLike
  rw [List.map_map, List.map_map]
  apply List.map_congr_left
  intro row _
  show ((List.range (row.map (fun _ => some (1 : ℚ))).length).map
      (fun t => slice t (t + win) (List.replicate (win - 1) (none : Val) ++
        row.map (fun _ => some 1)))).map nanlastRow = row.map (fun _ => some 1)
  rw [List.map_const', List.length_replicate, List.map_map]
  apply List.eq_replicate_iff.mpr
  constructor
  · rw [List.length_map, List.length_range]
  · intro b hb
    obtain ⟨t, ht, rfl⟩ := List.mem_map.mp hb
    rw [List.mem_range] at ht
    show nanlastRow (slice t (t + win)
      (List.replicate (win - 1) (none : Val) ++
        List.replicate row.length (some 1))) = some 1
    rw [slice_window_ones row.length win t ht]
    exact nanlastRow_pad_ones _ _ (by omega)

/-- Multiplying a window by the correspondingly-padded all-ones window is the
identity: padding cells are missing on both sides, data cells meet a `1`. -/
theorem zipWith_vmul_window (row : List Val) (win t : ℕ) (ht : t < row.length) :
    List.zipWith vmul
      (slice t (t + win) (List.replicate (win - 1) (none : Val) ++ row))
      (slice t (t + win) (List.replicate (win - 1) (none : Val) ++
        List.replicate row.length (some 1))) =
      slice t (t + win) (List.replicate (win - 1) (none : Val) ++ row) := by
  have hlen1 : (List.replicate (win - 1) (none : Val) ++ row).length =
      (win - 1) + row.length := by simp
  have hlen2 : (List.replicate (win - 1) (none : Val) ++
      List.replicate row.length (some (1 : ℚ))).length = (win - 1) + row.length := by
    simp
  apply List.ext_getElem
  · rw [List.length_zipWith, slice_length, slice_length, hlen1, hlen2]
    omega
  · intro k h1 h2
    rw [List.getElem_zipWith]
    have hsl := slice_length (List.replicate (win - 1) (none : Val) ++ row) t (t + win)
    have hik : t + k < (win - 1) + row.length := by
      rw [hlen1] at hsl
      omega
    have hk3 : k < (slice t (t + win) (List.replicate (win - 1) (none : Val) ++
        List.replicate row.length (some 1))).length := by
      rw [slice_length, hlen2]
      rw [slice_length, hlen1] at h2
      exact h2
    rw [slice_getElem _ h2 (by rw [hlen1]; exact hik),
      slice_getElem _ hk3 (by rw [hlen2]; exact hik)]
    simp only [List.getElem_append, List.length_replicate]
    by_cases hc : t + k < win - 1
    · simp only [dif_pos hc, List.getElem_replicate]
      rfl
    · simp only [dif_neg hc, List.getElem_replicate]
      exact vmul_one _

theorem map_vdiv_one (l : List Val) : l.map (fun c => vdiv c (some 1)) = l := by
  rw [List.map_congr_left (fun c _ => vdiv_one c), List.map_id']

/-- The cell-wise `values * adjustments / last` with a uniformly-1 adjustment
reproduces the value windows exactly, missing cells included. -/
theorem adjusted_ones_neutral (x : Tensor2) (win : ℕ) :
    List.zipWith3 (fun vrow arow lrow =>
        List.zipWith3 (fun vwin awin lcell =>
          (List.zipWith vmul vwin awin).map (fun c => vdiv c lcell)) vrow arow lrow)
      (unfold x win none) (unfold (onesLike x) win none) (onesLike x) =
      unfold x win none := by
  unfold unfold onesLike
  rw [List.map_map, zipWith3_map_same]
  apply List.map_congr_left
  intro row _
  show List.zipWith3 (fun vwin awin lcell =>
      (List.zipWith vmul vwin awin).map (fun c => vdiv c lcell))
    ((List.range row.length).map (fun t => slice t (t + win)
      (List.replicate (win - 1) (none : Val) ++ row)))
    ((List.range (row.map (fun _ => some (1 : ℚ))).length).map
      (fun t => slice t (t + win) (List.replicate (win - 1) (none : Val) ++
        row.map (fun _ => some 1))))
    (row.map (fun _ => some 1)) =
    (List.range row.length).map (fun t => slice t (t + win)
      (List.replicate (win - 1) (none : Val) ++ row))
  rw [List.map_const', List.length_replicate,
    show List.replicate row.length (some (1 : ℚ)) =
      (List.range row.length).map (fun _ => some (1 : ℚ)) by
        rw [List.map_const', List.length_range],
    zipWith3_map_same]
  apply List.map_congr_left
  intro t ht
  rw [List.mem_range] at ht
  rw [map_vdiv_one,
    show (List.range row.length).map (fun _ => some (1 : ℚ)) =
      List.replicate row.length (some 1) by rw [List.map_const', List.length_range]]
  exact zipWith_vmul_window row win t ht

/-- C9: a Rolling engine whose adjustment tensor is uniformly `1` adjusts
nothing: `adjusted(s, e)` equals the unadjusted `values[s:e]` for every row
range, left-padded window cells included. -/
theorem c9_adjustment_neutral (x : Tensor2) (win : ℕ) (multi : ℚ) (s e : ℕ)
    (hw : 0 < win) :
    (Rolling.mkAdj x win (onesLike x) multi).adjusted s e =
      (Rolling.mk0 x win multi).adjusted s e ∧
    (Rolling.mk0 x win multi).adjusted s e = slice s e (unfold x win none) := by
  have h2 : (Rolling.mk0 x win multi).adjusted s e = slice s e (unfold x win none) :=
    rfl
  refine ⟨?_, h2⟩
  have hadj : (Rolling.mkAdj x win (onesLike x) multi).adjusted s e =
      List.zipWith3 (fun vrow arow lrow =>
        List.zipWith3 (fun vwin awin lcell =>
          (List.zipWith vmul vwin awin).map (fun c => vdiv c lcell)) vrow arow lrow)
        (slice s e (unfold x win none))
        (slice s e (unfold (onesLike x) win none))
        (slice s e ((Rolling.mk0 (onesLike x) win multi).last_nonnan)) := rfl
  rw [hadj, last_nonnan_ones x win multi hw, ← slice_zipWith3,
    adjusted_ones_neutral, h2]

/-- Witness for C9 at `x = [[5, NaN, 7]]`, `win = 2`, the chunk `[0:1]`. -/
theorem c9_witness :
    (Rolling.mkAdj [[some 5, none, some 7]] 2
        (onesLike [[some 5, none, some 7]]) 64).adjusted 0 1 =
      (Rolling.mk0 [[some 5, none, some 7]] 2 64).adjusted 0 1 ∧
    (Rolling.mk0 [[some 5, none, some 7]] 2 64).adjusted 0 1 =
      slice 0 1 (unfold [[some 5, none, some 7]] 2 none) :=
  c9_adjustment_neutral [[some 5, none, some 7]] 2 64 0 1 (by decide)

/-- C8: for the single input row `[10, 20, 30, 40]` with `win = 2`, `unfold`
yields the windows `[[NaN,10],[10,20],[20,30],[30,40]]`, `last()` returns the
original row exactly, and `first()` returns `[NaN, 10, 20, 30]`. -/
theorem c8_rolling_window_example :
    unfold [[some 10, some 20, some 30, some 40]] 2 none =
      [[[none, some 10], [some 10, some 20], [some 20, some 30],
        [some 30, some 40]]] ∧
    (Rolling.mk0 [[some 10, some 20, some 30, some 40]] 2 splitMulti).last =
      .ok [[some 10, some 20, some 30, some 40]] ∧
    (Rolling.mk0 [[some 10, some 20, some 30, some 40]] 2 splitMulti).first =
      .ok [[none, some 10, some 20, some 30]] := by
  refine ⟨rfl, ?_, ?_⟩ <;> with_unfolding_all rfl

/-! ### Group Layout lemmas: the sorted permutation -/

namespace ParallelGroupBy

theorem sortedIndices_perm (keys : List ℤ) :
    (sortedIndices keys).Perm (List.range keys.length) :=
  List.perm_insertionSort _ _

theorem sortedIndices_length (keys : List ℤ) :
    (sortedIndices keys).length = keys.length := by
  rw [(sortedIndices_perm keys).length_eq, List.length_range]

theorem sortedIndices_nodup (keys : List ℤ) : (sortedIndices keys).Nodup :=
  ((sortedIndices_perm keys).nodup_iff).mpr (List.nodup_range _)

theorem mem_sortedIndices {keys : List ℤ} {i : ℕ} (h : i ∈ sortedIndices keys) :
    i < keys.length := by
  have := (sortedIndices_perm keys).mem_iff.mp h
  rwa [List.mem_range] at this

theorem sortedIndices_sorted (keys : List ℤ) :
    List.Sorted (relLe keys) (sortedIndices keys) :=
  List.sorted_insertionSort _ _

theorem linsp_nonneg (n i : ℕ) : 0 ≤ linsp n i := by
  unfold linsp
  by_cases h : n ≤ 1
  · rw [if_pos h]
  · rw [if_neg h]
    push_neg at h
    have h2 : (2 : ℚ) ≤ (n : ℚ) := by exact_mod_cast h
    apply div_nonneg
    · positivity
    · linarith

theorem linsp_le (n i : ℕ) (hi : i < n) : linsp n i ≤ 9 / 10 := by
  unfold linsp
  by_cases h : n ≤ 1
  · rw [if_pos h]
    norm_num
  · rw [if_neg h]
    push_neg at h
    have hn : (2 : ℚ) ≤ (n : ℚ) := by exact_mod_cast h
    have hi1 : (i : ℚ) ≤ (n : ℚ) - 1 := by
      have h2 : (i : ℚ) + 1 ≤ (n : ℚ) := by exact_mod_cast hi
      linarith
    rw [div_le_iff₀ (by linarith)]
    have hi0 : (0 : ℚ) ≤ (i : ℚ) := Nat.cast_nonneg i
    nlinarith

theorem linsp_lt_one (n i : ℕ) (hi : i < n) : linsp n i < 1 :=
  lt_of_le_of_lt (linsp_le n i hi) (by norm_num)

theorem linsp_strictMono {n i j : ℕ} (hij : i < j) (hj : j < n) :
    linsp n i < linsp n j := by
  unfold linsp
  have h : ¬ n ≤ 1 := by omega
  rw [if_neg h, if_neg h]
  push_neg at h
  have hn : (2 : ℚ) ≤ (n : ℚ) := by exact_mod_cast h
  have hij' : (i : ℚ) < (j : ℚ) := by exact_mod_cast hij
  rw [div_lt_div_iff₀ (by linarith) (by linarith)]
  nlinarith

theorem linsp_mono {n i j : ℕ} (hij : i ≤ j) (hj : j < n) :
    linsp n i ≤ linsp n j := by
  rcases Nat.lt_or_ge i j with h | h
  · exact le_of_lt (linsp_strictMono h hj)
  · have : i = j := le_antisymm hij h
    subst this
    exact le_refl _

theorem relKey_inj {keys : List ℤ} {i j : ℕ} (hi : i < keys.length)
    (hj : j < keys.length) (h : relKey keys i = relKey keys j) : i = j := by
  by_contra hne
  unfold relKey at h
  have hdiff : ((keys.getD i 0 : ℤ) : ℚ) - ((keys.getD j 0 : ℤ) : ℚ) =
      linsp keys.length j - linsp keys.length i := by linarith
  have hb1 := linsp_nonneg keys.length i
  have hb2 := linsp_nonneg keys.length j
  have hb3 := linsp_le keys.length i hi
  have hb4 := linsp_le keys.length j hj
  have habs : |((keys.getD i 0 : ℤ) : ℚ) - ((keys.getD j 0 : ℤ) : ℚ)| ≤ 9 / 10 := by
    rw [hdiff, abs_le]
    constructor <;> linarith
  have hint : keys.getD i 0 = keys.getD j 0 := by
    by_contra hkne
    have h1 : 1 ≤ |keys.getD i 0 - keys.getD j 0| :=
      Int.one_le_abs (sub_ne_zero.mpr hkne)
    have h2 : (1 : ℚ) ≤ |((keys.getD i 0 : ℤ) : ℚ) - ((keys.getD j 0 : ℤ) : ℚ)| := by
      exact_mod_cast h1
    linarith
  rw [hint] at h
  have hlin : linsp keys.length i = linsp keys.length j := by linarith
  rcases Nat.lt_trichotomy i j with hlt | heq | hgt
  · exact absurd hlin (ne_of_lt (linsp_strictMono hlt hj))
  · exact hne heq
  · exact absurd hlin.symm (ne_of_lt (linsp_strictMono hgt hi))

theorem sorted_relKey_strict (keys : List ℤ) {a b : ℕ} (hab : a < b)
    (hb : b < keys.length) :
    relKey keys ((sortedIndices keys).getD a 0) <
      relKey keys ((sortedIndices keys).getD b 0) := by
  have hlen := sortedIndices_length keys
  have ha' : a < (sortedIndices keys).length := by omega
  have hb' : b < (sortedIndices keys).length := by omega
  have hle : relLe keys ((sortedIndices keys).get ⟨a, ha'⟩)
      ((sortedIndices keys).get ⟨b, hb'⟩) :=
    (sortedIndices_sorted keys).rel_get_of_lt hab
  have hne : (sortedIndices keys).get ⟨a, ha'⟩ ≠ (sortedIndices keys).get ⟨b, hb'⟩ := by
    intro hcon
    have := List.Nodup.get_inj_iff (sortedIndices_nodup keys) |>.mp hcon
    simp at this
    omega
  have hma : (sortedIndices keys).get ⟨a, ha'⟩ < keys.length :=
    mem_sortedIndices (List.get_mem _ _ _)
  have hmb : (sortedIndices keys).get ⟨b, hb'⟩ < keys.length :=
    mem_sortedIndices (List.get_mem _ _ _)
  have hne2 : relKey keys ((sortedIndices keys).get ⟨a, ha'⟩) ≠
      relKey keys ((sortedIndices keys).get ⟨b, hb'⟩) := by
    intro hcon
    exact hne (relKey_inj hma hmb hcon)
  rw [List.getD_eq_getElem _ _ ha', List.getD_eq_getElem _ _ hb']
  exact lt_of_le_of_ne hle hne2

/-- Core of C4: the sort order refines the lexicographic (key, original index)
order. -/
theorem sorted_key_lex (keys : List ℤ) {a b : ℕ} (hab : a < b)
    (hb : b < keys.length) :
    keys.getD ((sortedIndices keys).getD a 0) 0 <
        keys.getD ((sortedIndices keys).getD b 0) 0 ∨
      (keys.getD ((sortedIndices keys).getD a 0) 0 =
          keys.getD ((sortedIndices keys).getD b 0) 0 ∧
        (sortedIndices keys).getD a 0 < (sortedIndices keys).getD b 0) := by
  have hlen := sortedIndices_length keys
  have ha' : a < (sortedIndices keys).length := by omega
  have hb' : b < (sortedIndices keys).length := by omega
  have hia : (sortedIndices keys).getD a 0 < keys.length := by
    rw [List.getD_eq_getElem _ _ ha']
    exact mem_sortedIndices (List.getElem_mem _)
  have hib : (sortedIndices keys).getD b 0 < keys.length := by
    rw [List.getD_eq_getElem _ _ hb']
    exact mem_sortedIndices (List.getElem_mem _)
  have hstrict := sorted_relKey_strict keys hab hb
  unfold relKey at hstrict
  have hb1 := linsp_nonneg keys.length ((sortedIndices keys).getD a 0)
  have hb2 := linsp_nonneg keys.length ((sortedIndices keys).getD b 0)
  have hb3 := linsp_le keys.length _ hia
  have hb4 := linsp_le keys.length _ hib
  rcases Int.lt_trichotomy (keys.getD ((sortedIndices keys).getD a 0) 0)
    (keys.getD ((sortedIndices keys).getD b 0) 0) with hlt | heq | hgt
  · exact Or.inl hlt
  · refine Or.inr ⟨heq, ?_⟩
    rw [heq] at hstrict
    have hlin : linsp keys.length ((sortedIndices keys).getD a 0) <
        linsp keys.length ((sortedIndices keys).getD b 0) := by linarith
    by_contra hcon
    push_neg at hcon
    exact absurd hlin (not_lt.mpr (linsp_mono hcon hia))
  · exfalso
    have h1 : (keys.getD ((sortedIndices keys).getD b 0) 0 : ℚ) + 1 ≤
        (keys.getD ((sortedIndices keys).getD a 0) 0 : ℚ) := by
      have : keys.getD ((sortedIndices keys).getD b 0) 0 + 1 ≤
          keys.getD ((sortedIndices keys).getD a 0) 0 := hgt
      exact_mod_cast this
    linarith

/-! ### Group Layout lemmas: boundaries and runs -/

theorem filterMap_ite (p : α → Prop) [DecidablePred p] (f : α → β) (l : List α) :
    l.filterMap (fun a => if p a then some (f a) else none) =
      (l.filter (fun a => decide (p a))).map f := by
  induction l with
  | nil => rfl
  | cons x xs ih =>
    by_cases h : p x
    · rw [List.filterMap_cons, if_pos h, List.filter_cons, if_pos (by simpa using h),
        List.map_cons, ih]
    · rw [List.filterMap_cons, if_neg h, List.filter_cons, if_neg (by simpa using h),
        ih]

theorem mids_eq (keys : List ℤ) :
    mids keys = (((List.range (keys.length - 1)).filter (fun j =>
      decide ((sortedKeysInt keys).getD (j + 1) 0 ≠ (sortedKeysInt keys).getD j 0))).map
        (· + 1)) :=
  filterMap_ite _ _ _

theorem mids_pairwise (keys : List ℤ) : (mids keys).Pairwise (· < ·) := by
  rw [mids_eq]
  refine List.Pairwise.map (· + 1) (fun a b (hab : a < b) => ?_)
    (List.Pairwise.filter _ (List.pairwise_lt_range _))
  show a + 1 < b + 1
  omega

theorem mids_mem_bounds (keys : List ℤ) {m : ℕ} (hm : m ∈ mids keys) :
    1 ≤ m ∧ m ≤ keys.length - 1 := by
  rw [mids_eq] at hm
  obtain ⟨j, hj, rfl⟩ := List.mem_map.mp hm
  have := List.mem_range.mp (List.mem_of_mem_filter hj)
  omega

theorem mids_mem_of {keys : List ℤ} {j : ℕ} (hj : j < keys.length - 1)
    (hne : (sortedKeysInt keys).getD (j + 1) 0 ≠ (sortedKeysInt keys).getD j 0) :
    j + 1 ∈ mids keys := by
  unfold mids
  exact List.mem_filterMap.mpr ⟨j, List.mem_range.mpr hj, by rw [if_pos hne]⟩

theorem boundary_chain_le (keys : List ℤ) :
    List.Chain (· ≤ ·) 0 (mids keys ++ [keys.length]) := by
  have hpw : ((0 : ℕ) :: (mids keys ++ [keys.length])).Pairwise (· ≤ ·) := by
    rw [List.pairwise_cons]
    constructor
    · intro a _
      exact Nat.zero_le a
    · rw [List.pairwise_append]
      refine ⟨(mids_pairwise keys).imp le_of_lt, List.pairwise_singleton _ _, ?_⟩
      intro a ha b hb
      rw [List.mem_singleton] at hb
      subst hb
      have := mids_mem_bounds keys ha
      omega
  have hc : List.Chain' (· ≤ ·) ((0 : ℕ) :: (mids keys ++ [keys.length])) :=
    (List.chain'_iff_pairwise).mpr hpw
  exact hc

theorem boundary_pairwise_lt (keys : List ℤ) (h1 : 1 ≤ keys.length) :
    (boundary keys).Pairwise (· < ·) := by
  unfold boundary
  rw [List.pairwise_cons]
  constructor
  · intro a ha
    rcases List.mem_append.mp ha with h | h
    · have := mids_mem_bounds keys h
      omega
    · rw [List.mem_singleton] at h
      omega
  · rw [List.pairwise_append]
    refine ⟨mids_pairwise keys, List.pairwise_singleton _ _, ?_⟩
    intro a ha b hb
    rw [List.mem_singleton] at hb
    subst hb
    have := mids_mem_bounds keys ha
    omega

theorem boundary_le (keys : List ℤ) : ∀ x ∈ boundary keys, x ≤ keys.length := by
  intro x hx
  unfold boundary at hx
  rcases List.mem_cons.mp hx with rfl | hx
  · omega
  · rcases List.mem_append.mp hx with h | h
    · have := mids_mem_bounds keys h
      omega
    · rw [List.mem_singleton] at h
      omega

theorem flatten_runs (keys : List ℤ) :
    (runs keys).flatten = sortedIndices keys := by
  unfold runs boundary
  rw [flatten_slices (sortedIndices keys) _ 0 (boundary_chain_le keys),
    List.getLastD_concat, ← sortedIndices_length keys, slice_zero_length]

theorem adjPairs_length : ∀ l : List ℕ, (adjPairs l).length = l.length - 1
  | [] => rfl
  | [_] => rfl
  | a :: b :: t => by
    rw [show adjPairs (a :: b :: t) = (a, b) :: adjPairs (b :: t) from rfl,
      List.length_cons, adjPairs_length (b :: t)]
    simp

theorem adjPairs_getD : ∀ (l : List ℕ) (g : ℕ), g + 1 < l.length →
    (adjPairs l).getD g (0, 0) = (l.getD g 0, l.getD (g + 1) 0)
  | [], g, h => by simp at h
  | [_], g, h => by simp at h
  | a :: b :: t, 0, _ => rfl
  | a :: b :: t, g + 1, h => by
    rw [show adjPairs (a :: b :: t) = (a, b) :: adjPairs (b :: t) from rfl]
    rw [show ((a, b) :: adjPairs (b :: t)).getD (g + 1) (0, 0) =
        (adjPairs (b :: t)).getD g (0, 0) from rfl]
    rw [adjPairs_getD (b :: t) g (by simpa using Nat.lt_of_succ_lt_succ h)]
    rfl

theorem runs_length (keys : List ℤ) : (runs keys).length = groups keys := by
  unfold runs groups
  rw [List.length_map, adjPairs_length]

theorem le_foldr_max {a : ℕ} : ∀ {l : List ℕ}, a ∈ l → a ≤ l.foldr max 0 := by
  intro l
  induction l with
  | nil => intro h; cases h
  | cons x xs ih =>
    intro h
    rcases List.mem_cons.mp h with rfl | h
    · exact le_max_left _ _
    · exact le_trans (ih h) (le_max_right _ _)

theorem run_le_width (keys : List ℤ) {r : List ℕ} (hr : r ∈ runs keys) :
    r.length ≤ width keys := by
  unfold runs at hr
  obtain ⟨p, hp, rfl⟩ := List.mem_map.mp hr
  have h1 : (slice p.1 p.2 (sortedIndices keys)).length ≤ p.2 - p.1 := by
    rw [slice_length]
    omega
  refine le_trans h1 (le_foldr_max ?_)
  exact List.mem_map.mpr ⟨p, hp, rfl⟩

theorem boundary_getD_lt (keys : List ℤ) (h1 : 1 ≤ keys.length) {g g' : ℕ}
    (hg : g < g') (hg' : g' < (boundary keys).length) :
    (boundary keys).getD g 0 < (boundary keys).getD g' 0 := by
  have hpw := boundary_pairwise_lt keys h1
  rw [List.pairwise_iff_get] at hpw
  have hgl : g < (boundary keys).length := lt_trans hg hg'
  rw [List.getD_eq_getElem _ _ hgl, List.getD_eq_getElem _ _ hg']
  exact hpw ⟨g, hgl⟩ ⟨g', hg'⟩ hg

theorem boundary_no_middle (keys : List ℤ) (h1 : 1 ≤ keys.length) {g x : ℕ}
    (hg : g + 1 < (boundary keys).length) (hx : x ∈ boundary keys)
    (hlt : (boundary keys).getD g 0 < x) (hgt : x < (boundary keys).getD (g + 1) 0) :
    False := by
  obtain ⟨m, hm, hmx⟩ := List.mem_iff_getElem.mp hx
  have hxD : (boundary keys).getD m 0 = x := by
    rw [List.getD_eq_getElem _ _ hm, hmx]
  rcases Nat.lt_trichotomy m (g + 1) with hc | hc | hc
  · rcases Nat.lt_or_ge m g with hc2 | hc2
    · have := boundary_getD_lt keys h1 hc2 (by omega)
      omega
    · have hmg : m = g := by omega
      subst hmg
      omega
  · subst hc
    omega
  · have := boundary_getD_lt keys h1 hc hm
    omega

theorem sortedKeysInt_getD (keys : List ℤ) {p : ℕ} (hp : p < keys.length) :
    (sortedKeysInt keys).getD p 0 =
      ratTrunc (relKey keys ((sortedIndices keys).getD p 0)) := by
  unfold sortedKeysInt
  exact getD_map _ _ p 0 0 (by rw [sortedIndices_length]; exact hp)

theorem skInt_adjacent_eq (keys : List ℤ) (h1 : 1 ≤ keys.length) {g p : ℕ}
    (hg : g + 1 < (boundary keys).length)
    (hp1 : (boundary keys).getD g 0 ≤ p)
    (hp2 : p + 1 < (boundary keys).getD (g + 1) 0) :
    (sortedKeysInt keys).getD (p + 1) 0 = (sortedKeysInt keys).getD p 0 := by
  by_contra hne
  have hb2 : (boundary keys).getD (g + 1) 0 ≤ keys.length := by
    apply boundary_le
    rw [List.getD_eq_getElem _ _ hg]
    exact List.getElem_mem _
  have hmem : p + 1 ∈ mids keys := mids_mem_of (by omega) hne
  exact boundary_no_middle keys h1 hg
    (by unfold boundary; exact List.mem_cons_of_mem _ (List.mem_append_left _ hmem))
    (by omega) hp2

theorem skInt_const (keys : List ℤ) (h1 : 1 ≤ keys.length) {g : ℕ}
    (hg : g + 1 < (boundary keys).length) {p q : ℕ} (hpq : p ≤ q)
    (hp : (boundary keys).getD g 0 ≤ p)
    (hq : q < (boundary keys).getD (g + 1) 0) :
    (sortedKeysInt keys).getD p 0 = (sortedKeysInt keys).getD q 0 := by
  induction q, hpq using Nat.le_induction with
  | base => rfl
  | succ m hm ih =>
    rw [skInt_adjacent_eq keys h1 hg (by omega) hq]
    exact ih (by omega)

theorem ratTrunc_intCast_add (k : ℤ) (q : ℚ) (hk : 0 ≤ k) (hq0 : 0 ≤ q)
    (hq1 : q < 1) : ratTrunc ((k : ℚ) + q) = k := by
  unfold ratTrunc
  have hk' : (0 : ℚ) ≤ (k : ℚ) := by exact_mod_cast hk
  rw [if_neg (not_lt.mpr (by linarith))]
  rw [add_comm, Int.floor_add_int]
  rw [Int.floor_eq_zero_iff.mpr (Set.mem_Ico.mpr ⟨hq0, hq1⟩), zero_add]

theorem skInt_eq_key (keys : List ℤ) (hkeys : ∀ k ∈ keys, 0 ≤ k) {p : ℕ}
    (hp : p < keys.length) :
    (sortedKeysInt keys).getD p 0 = keys.getD ((sortedIndices keys).getD p 0) 0 := by
  rw [sortedKeysInt_getD keys hp]
  have hp' : p < (sortedIndices keys).length := by
    rw [sortedIndices_length]
    exact hp
  have hi_lt : (sortedIndices keys).getD p 0 < keys.length := by
    rw [List.getD_eq_getElem _ _ hp']
    exact mem_sortedIndices (List.getElem_mem _)
  unfold relKey
  apply ratTrunc_intCast_add
  · apply hkeys
    rw [List.getD_eq_getElem _ _ hi_lt]
    exact List.getElem_mem _
  · exact linsp_nonneg _ _
  · exact linsp_lt_one _ _ hi_lt

/-! ### Group Layout lemmas: the padded rectangle -/

theorem runsP_length (keys : List ℤ) : (runsP keys).length = groups keys := by
  unfold runsP
  rw [List.length_map, runs_length]

theorem runsP_getD (keys : List ℤ) {g : ℕ} (hg : g < (runsP keys).length) :
    (runsP keys).getD g [] =
      padTo (width keys) none (((runs keys).getD g []).map some) := by
  unfold runsP
  unfold runsP at hg
  exact getD_map _ _ g [] [] (by simpa using hg)

theorem padTo_getD_some {w : ℕ} {r : List ℕ} {a ia : ℕ}
    (h : (padTo w (none : Option ℕ) (r.map some)).getD a none = some ia) :
    a < r.length ∧ r.getD a 0 = ia := by
  unfold padTo at h
  by_cases ha : a < r.length
  · rw [List.getD_append _ _ _ a (by rw [List.length_map]; exact ha),
      getD_map some r a none 0 ha] at h
    exact ⟨ha, Option.some.inj h⟩
  · exfalso
    push_neg at ha
    rw [List.getD_append_right _ _ _ _ (by rw [List.length_map]; exact ha)] at h
    rcases Nat.lt_or_ge (a - (r.map some).length)
        (List.replicate (w - (r.map some).length) (none : Option ℕ)).length with
      hlt | hge
    · rw [List.getD_eq_getElem _ _ hlt, List.getElem_replicate] at h
      exact Option.noConfusion h
    · rw [List.getD_eq_default _ _ hge] at h
      exact Option.noConfusion h

theorem invFlat_getD_cells (keys : List ℤ) {p j : ℕ}
    (hp : p < (invFlat keys).length) (hj : (invFlat keys).getD p 0 = j)
    (hjn : j < keys.length) : (cells keys).getD p none = some j := by
  unfold invFlat at hp hj
  rw [getD_map _ _ p 0 none (by simpa using hp)] at hj
  cases hc : (cells keys).getD p none with
  | none =>
    rw [hc] at hj
    simp at hj
    omega
  | some i =>
    rw [hc] at hj
    simp at hj
    rw [hj]

theorem flatten_map_append_perm (f g : α → List β) (l : List α) :
    ((l.map (fun a => f a ++ g a)).flatten).Perm
      ((l.map f).flatten ++ (l.map g).flatten) := by
  induction l with
  | nil => exact List.Perm.refl _
  | cons x xs ih =>
    simp only [List.map_cons, List.flatten_cons]
    refine (List.Perm.append_left (f x ++ g x) ih).trans ?_
    rw [List.append_assoc, List.append_assoc]
    exact List.Perm.append_left _ (List.perm_append_comm_assoc _ _ _)

theorem invFlat_eq (keys : List ℤ) :
    invFlat keys = ((runs keys).map (fun r =>
      r ++ List.replicate (width keys - r.length) (keys.length + 1))).flatten := by
  unfold invFlat cells runsP
  rw [List.map_flatten, List.map_map]
  congr 1
  apply List.map_congr_left
  intro r _
  show (padTo (width keys) none (r.map some)).map
    (fun c => c.elim (keys.length + 1) id) = _
  unfold padTo
  rw [List.map_append, List.map_map, List.map_replicate, List.length_map]
  congr 1
  rw [List.map_congr_left (l := r) (fun a _ => rfl :
    ∀ a ∈ r, ((fun c => Option.elim c (keys.length + 1) id) ∘ some) a = a)]
  exact List.map_id' r

theorem invFlat_perm (keys : List ℤ) :
    ∃ K, (invFlat keys).Perm
      (List.range keys.length ++ List.replicate K (keys.length + 1)) := by
  refine ⟨((runs keys).map (fun r =>
    List.replicate (width keys - r.length) (keys.length + 1))).flatten.length, ?_⟩
  rw [invFlat_eq]
  have h1 := flatten_map_append_perm (fun r => r)
    (fun r => List.replicate (width keys - r.length) (keys.length + 1)) (runs keys)
  have h2 : ((runs keys).map (fun r => r)).flatten = sortedIndices keys := by
    rw [List.map_id', flatten_runs]
  have h3 : ((runs keys).map (fun r =>
      List.replicate (width keys - r.length) (keys.length + 1))).flatten =
      List.replicate ((runs keys).map (fun r =>
        List.replicate (width keys - r.length) (keys.length + 1))).flatten.length
        (keys.length + 1) := by
    apply List.eq_replicate_iff.mpr
    refine ⟨rfl, ?_⟩
    intro b hb
    obtain ⟨l, hl, hbl⟩ := List.mem_flatten.mp hb
    obtain ⟨r, _, rfl⟩ := List.mem_map.mp hl
    exact (List.eq_of_mem_replicate hbl)
  refine h1.trans ?_
  rw [h2]
  refine List.Perm.append (sortedIndices_perm keys) ?_
  rw [← h3]

theorem invFlat_length_eq (keys : List ℤ) :
    (invFlat keys).length = groups keys * width keys := by
  unfold invFlat cells
  rw [List.length_map, List.length_flatten]
  have h : (runsP keys).map List.length = List.replicate (groups keys) (width keys) := by
    apply List.eq_replicate_iff.mpr
    constructor
    · rw [List.length_map, runsP_length]
    · intro b hb
      obtain ⟨row, hrow, rfl⟩ := List.mem_map.mp hb
      unfold runsP at hrow
      obtain ⟨r, hr, rfl⟩ := List.mem_map.mp hrow
      unfold padTo
      rw [List.length_append, List.length_map, List.length_replicate]
      have := run_le_width keys hr
      omega
  rw [h, List.sum_replicate, smul_eq_mul]

theorem n_le_invFlat_length (keys : List ℤ) :
    keys.length ≤ (invFlat keys).length := by
  obtain ⟨K, hperm⟩ := invFlat_perm keys
  rw [hperm.length_eq, List.length_append, List.length_range]
  omega

/-! ### Group Layout lemmas: the inverse permutation -/

theorem invFlat_sorted_positions (keys : List ℤ) {j : ℕ} (hj : j < keys.length) :
    (invFlat keys).getD ((List.insertionSort (posLe (invFlat keys))
      (List.range (invFlat keys).length)).getD j 0) 0 = j ∧
    (List.insertionSort (posLe (invFlat keys))
      (List.range (invFlat keys).length)).getD j 0 < (invFlat keys).length := by
  obtain ⟨K, hperm⟩ := invFlat_perm keys
  have hLn : (invFlat keys).length = keys.length + K := by
    rw [hperm.length_eq]
    simp
  have hPperm : (List.insertionSort (posLe (invFlat keys))
      (List.range (invFlat keys).length)).Perm
      (List.range (invFlat keys).length) := List.perm_insertionSort _ _
  have hPlen : (List.insertionSort (posLe (invFlat keys))
      (List.range (invFlat keys).length)).length = (invFlat keys).length := by
    rw [hPperm.length_eq, List.length_range]
  have hjP : j < (List.insertionSort (posLe (invFlat keys))
      (List.range (invFlat keys).length)).length := by omega
  have hmap_range : (List.range (invFlat keys).length).map
      (fun p => (invFlat keys).getD p 0) = invFlat keys := by
    apply List.ext_getElem
    · rw [List.length_map, List.length_range]
    · intro i h1 h2
      rw [List.getElem_map, List.getElem_range, List.getD_eq_getElem _ _ h2]
  have hsortedP : List.Pairwise (posLe (invFlat keys))
      (List.insertionSort (posLe (invFlat keys))
        (List.range (invFlat keys).length)) := List.sorted_insertionSort _ _
  have hvals_sorted : ((List.insertionSort (posLe (invFlat keys))
      (List.range (invFlat keys).length)).map
        (fun p => (invFlat keys).getD p 0)).Pairwise (· ≤ ·) := by
    rw [List.pairwise_map]
    exact hsortedP
  have hvals_perm : ((List.insertionSort (posLe (invFlat keys))
      (List.range (invFlat keys).length)).map
        (fun p => (invFlat keys).getD p 0)).Perm (invFlat keys) :=
    (hPperm.map _).trans (by rw [hmap_range])
  have htarget_sorted : (List.range keys.length ++
      List.replicate K (keys.length + 1)).Pairwise (· ≤ ·) := by
    rw [List.pairwise_append]
    refine ⟨(List.pairwise_lt_range _).imp le_of_lt,
      List.pairwise_replicate.mpr (Or.inr (le_refl (keys.length + 1))), ?_⟩
    intro a ha b hb
    rw [List.mem_range] at ha
    have := List.eq_of_mem_replicate hb
    omega
  have heq : (List.insertionSort (posLe (invFlat keys))
      (List.range (invFlat keys).length)).map (fun p => (invFlat keys).getD p 0) =
      List.range keys.length ++ List.replicate K (keys.length + 1) :=
    List.eq_of_perm_of_sorted (hvals_perm.trans hperm) hvals_sorted htarget_sorted
  constructor
  · have h1 : ((List.insertionSort (posLe (invFlat keys))
        (List.range (invFlat keys).length)).map
          (fun p => (invFlat keys).getD p 0)).getD j 0 =
        (invFlat keys).getD ((List.insertionSort (posLe (invFlat keys))
          (List.range (invFlat keys).length)).getD j 0) 0 :=
      getD_map _ _ j 0 0 hjP
    rw [← h1, heq, List.getD_append _ _ _ j (by rw [List.length_range]; exact hj),
      List.getD_eq_getElem _ _ (by rw [List.length_range]; exact hj),
      List.getElem_range]
  · have hmem : (List.insertionSort (posLe (invFlat keys))
        (List.range (invFlat keys).length)).getD j 0 ∈
        List.insertionSort (posLe (invFlat keys))
          (List.range (invFlat keys).length) := by
      rw [List.getD_eq_getElem _ _ hjP]
      exact List.getElem_mem _
    have := hPperm.mem_iff.mp hmem
    rwa [List.mem_range] at this

theorem takeFlat_length (keys : List ℤ) :
    (takeFlat keys).length = (invFlat keys).length := by
  unfold takeFlat invFlat
  rw [List.length_map, List.length_map]

theorem maskFlat_length (keys : List ℤ) :
    (maskFlat keys).length = (invFlat keys).length := by
  unfold maskFlat
  rw [List.length_map, takeFlat_length]

theorem cells_length (keys : List ℤ) :
    (cells keys).length = (invFlat keys).length := by
  unfold invFlat
  rw [List.length_map]

theorem split_data_getD (keys : List ℤ) (v : List Val) {p j : ℕ}
    (hp : p < (invFlat keys).length) (_hjn : j < keys.length)
    (hc : (cells keys).getD p none = some j) :
    (split keys v).data.getD p none = v.getD j none := by
  have hcl := cells_length keys
  have hpc : p < (cells keys).length := by omega
  have hcp : (cells keys)[p] = some j := by
    rw [← List.getD_eq_getElem (cells keys) none hpc]
    exact hc
  show (List.zipWith (fun x m => if m then none else x)
    ((takeFlat keys).map (torchTake v)) (maskFlat keys)).getD p none = v.getD j none
  rw [List.getD_eq_getElem _ _ (by
      rw [List.length_zipWith, List.length_map, takeFlat_length, maskFlat_length]
      omega),
    List.getElem_zipWith]
  have hpt : p < (takeFlat keys).length := by rw [takeFlat_length]; omega
  have htake : (takeFlat keys)[p] = ((j : ℕ) : ℤ) := by
    unfold takeFlat
    rw [List.getElem_map, hcp]
    rfl
  have hpm : p < (maskFlat keys).length := by rw [maskFlat_length]; omega
  have hmask : (maskFlat keys)[p] = false := by
    unfold maskFlat
    rw [List.getElem_map, htake]
    simp only [beq_eq_false_iff_ne, ne_eq]
    omega
  rw [List.getElem_map, htake, hmask, if_neg (by simp)]
  unfold torchTake
  rw [if_neg (by omega)]
  rfl

/-- C1: `revert(split(v), label)` returns `v` exactly, for every integer key
vector and every value buffer of matching length. -/
theorem c1_round_trip (keys : List ℤ) (v : List Val) (label : String)
    (hv : v.length = keys.length) :
    revert keys (split keys v) label = .ok v := by
  unfold revert
  rw [if_neg (show ¬((split keys v).shape ≠ dataShape keys) from not_not_intro rfl)]
  apply congrArg
  have hn_le := n_le_invFlat_length keys
  have hlen1 : (inverseIndices keys).length = keys.length := by
    unfold inverseIndices
    rw [List.length_take, List.length_insertionSort, List.length_range]
    omega
  apply List.ext_getElem
  · rw [List.length_map, hlen1, hv]
  · intro j h1 h2
    rw [List.getElem_map]
    have hj : j < keys.length := by
      rw [List.length_map, hlen1] at h1
      exact h1
    have hjl : j < (inverseIndices keys).length := by rw [hlen1]; exact hj
    have hPidx : (inverseIndices keys)[j] =
        (List.insertionSort (posLe (invFlat keys))
          (List.range (invFlat keys).length)).getD j 0 := by
      unfold inverseIndices
      rw [List.getElem_take]
      exact (List.getD_eq_getElem _ 0 (by
        rw [List.length_insertionSort, List.length_range]
        omega)).symm
    obtain ⟨hval, hbound⟩ := invFlat_sorted_positions keys hj
    have hcells := invFlat_getD_cells keys hbound hval hj
    have hsp := split_data_getD keys v hbound hj hcells
    rw [hPidx, hsp, List.getD_eq_getElem _ _ (by omega)]

/-- Witness for C1 at keys `[3, 1, 1, 2]` and a value buffer with a missing
entry. -/
theorem c1_witness :
    revert [3, 1, 1, 2] (split [3, 1, 1, 2] [some 10, some 20, some 30, none])
      "f" = .ok [some 10, some 20, some 30, none] :=
  c1_round_trip [3, 1, 1, 2] [some 10, some 20, some 30, none] "f" rfl

/-! ### Group Layout lemmas: C2 and C4 ingredients -/

theorem filterMap_id_replicate_none_any (k : ℕ) :
    (List.replicate k (none : Option α)).filterMap id = [] := by
  induction k with
  | zero => rfl
  | succ m ih => simp [List.replicate_succ, List.filterMap_cons, ih]

theorem cells_filterMap_perm (keys : List ℤ) :
    ((cells keys).filterMap id).Perm (List.range keys.length) := by
  unfold cells
  rw [List.filterMap_flatten]
  have h : (runsP keys).map (List.filterMap id) = runs keys := by
    unfold runsP
    rw [List.map_map]
    have h2 : ∀ r ∈ runs keys,
        (List.filterMap id ∘ fun r => padTo (width keys) none (r.map some)) r = r := by
      intro r _
      show List.filterMap id (padTo (width keys) none (r.map some)) = r
      unfold padTo
      rw [List.filterMap_append, filterMap_id_replicate_none_any,
        List.filterMap_map, List.append_nil]
      have h3 : (id ∘ some : ℕ → Option ℕ) = some := rfl
      rw [h3, List.filterMap_some]
    rw [List.map_congr_left h2, List.map_id']
  rw [h, flatten_runs]
  exact sortedIndices_perm keys

theorem maskFlat_eq (keys : List ℤ) :
    maskFlat keys = (cells keys).map Option.isNone := by
  unfold maskFlat takeFlat
  rw [List.map_map]
  apply List.map_congr_left
  intro c _
  cases c with
  | none => rfl
  | some i =>
    show ((i : ℤ) == -1) = false
    exact beq_eq_false_iff_ne.mpr (by omega)

theorem inverseIndices_spec (keys : List ℤ) :
    (inverseIndices keys).length = keys.length ∧ (inverseIndices keys).Nodup ∧
      ∀ p ∈ inverseIndices keys, p < groups keys * width keys := by
  have hn_le := n_le_invFlat_length keys
  have hPperm : (List.insertionSort (posLe (invFlat keys))
      (List.range (invFlat keys).length)).Perm
      (List.range (invFlat keys).length) := List.perm_insertionSort _ _
  refine ⟨?_, ?_, ?_⟩
  · unfold inverseIndices
    rw [List.length_take, List.length_insertionSort, List.length_range]
    omega
  · exact List.Nodup.sublist (List.take_sublist _ _)
      ((hPperm.nodup_iff).mpr (List.nodup_range _))
  · intro p hp
    have hmem : p ∈ List.insertionSort (posLe (invFlat keys))
        (List.range (invFlat keys).length) :=
      (List.take_sublist _ _).mem hp
    have := hPperm.mem_iff.mp hmem
    rw [List.mem_range, invFlat_length_eq] at this
    exact this

/-- Decompose a non-padded cell of row `g` of the index matrix: its position
in the sorted permutation lies inside the g-th boundary interval. -/
theorem run_cell_positions (keys : List ℤ) {g a ia : ℕ}
    (hga : ((runsP keys).getD g []).getD a none = some ia) :
    g + 1 < (boundary keys).length ∧
      (boundary keys).getD g 0 + a < (boundary keys).getD (g + 1) 0 ∧
      (boundary keys).getD g 0 + a < keys.length ∧
      (sortedIndices keys).getD ((boundary keys).getD g 0 + a) 0 = ia := by
  have hg : g < (runsP keys).length := by
    by_contra hcon
    push_neg at hcon
    rw [List.getD_eq_default _ _ hcon] at hga
    simp at hga
  rw [runsP_getD keys hg] at hga
  obtain ⟨ha, hval⟩ := padTo_getD_some hga
  have hgb2 : g + 1 < (boundary keys).length := by
    rw [runsP_length] at hg
    unfold groups at hg
    omega
  have hgr : g < (adjPairs (boundary keys)).length := by
    rw [adjPairs_length]
    omega
  have hrun : (runs keys).getD g [] =
      slice ((boundary keys).getD g 0) ((boundary keys).getD (g + 1) 0)
        (sortedIndices keys) := by
    unfold runs
    rw [getD_map _ _ g [] (0, 0) hgr, adjPairs_getD _ g hgb2]
  rw [hrun] at ha hval
  rw [slice_length] at ha
  have hSIlen := sortedIndices_length keys
  refine ⟨hgb2, by omega, by omega, ?_⟩
  rw [← hval, slice_getD _ _ (by rw [slice_length]; omega)]

/-- C2 (amended): for every vector of non-negative integer keys, the layout
invariants hold: every original row index appears exactly once among non-padded
cells, cells sharing a matrix row index rows with equal keys, the padding mask
is true exactly at sentinel cells, and `inverseIndices` is an injective index
list of length N into the padded rectangle. -/
theorem c2_layout_invariants (keys : List ℤ) (hkeys : ∀ k ∈ keys, 0 ≤ k) :
    ((cells keys).filterMap id).Perm (List.range keys.length) ∧
    rowKeysEqual keys ∧
    maskFlat keys = (cells keys).map Option.isNone ∧
    (inverseIndices keys).length = keys.length ∧
    (inverseIndices keys).Nodup ∧
    (∀ p ∈ inverseIndices keys, p < groups keys * width keys) := by
  obtain ⟨h4, h5, h6⟩ := inverseIndices_spec keys
  refine ⟨cells_filterMap_perm keys, ?_, maskFlat_eq keys, h4, h5, h6⟩
  intro g a b ia ib hga hgb
  obtain ⟨hgb2, hpa2, hpan, hva⟩ := run_cell_positions keys hga
  obtain ⟨_, hpb2, hpbn, hvb⟩ := run_cell_positions keys hgb
  have h1n : 1 ≤ keys.length := by omega
  have hsk : (sortedKeysInt keys).getD ((boundary keys).getD g 0 + a) 0 =
      (sortedKeysInt keys).getD ((boundary keys).getD g 0 + b) 0 := by
    rcases Nat.le_total a b with hab | hab
    · exact skInt_const keys h1n hgb2 (by omega) (by omega) (by omega)
    · exact (skInt_const keys h1n hgb2 (by omega) (by omega) (by omega)).symm
  rw [skInt_eq_key keys hkeys hpan, skInt_eq_key keys hkeys hpbn, hva, hvb] at hsk
  exact hsk

/-- Witness for C2 at keys `[3, 1, 1, 2]` (all non-negative). -/
theorem c2_witness :
    ((cells [3, 1, 1, 2]).filterMap id).Perm (List.range 4) ∧
    rowKeysEqual [3, 1, 1, 2] ∧
    maskFlat [3, 1, 1, 2] = (cells [3, 1, 1, 2]).map Option.isNone ∧
    (inverseIndices [3, 1, 1, 2]).length = 4 ∧
    (inverseIndices [3, 1, 1, 2]).Nodup ∧
    (∀ p ∈ inverseIndices [3, 1, 1, 2],
      p < groups [3, 1, 1, 2] * width [3, 1, 1, 2]) :=
  c2_layout_invariants [3, 1, 1, 2] (by decide)

/-- Counterexample for C2 as stated: with the negative key vector
`[-1, -1, 0]`, truncation toward zero merges the perturbed keys `-0.55` and
`0.9` into the same group, so the second matrix row holds original rows `1`
and `2` whose keys `-1` and `0` differ. -/
theorem c2_counterexample : ¬ rowKeysEqual [-1, -1, 0] := by
  intro h
  have h1 := h 1 0 1 1 2 (by with_unfolding_all decide) (by with_unfolding_all decide)
  exact absurd h1 (by decide)

/-- C4: the perturb-then-sort construction is stable: the sort order refines
(key, original position) lexicographically, so equal-key rows keep their
original relative order in each matrix row; the perturbation is strictly
increasing in row position, its total range is at most `9/10`, and distinct
integer keys differ by at least `1`. -/
theorem c4_sort_stability (keys : List ℤ) :
    (∀ a b, a < b → b < keys.length →
      keys.getD ((sortedIndices keys).getD a 0) 0 <
          keys.getD ((sortedIndices keys).getD b 0) 0 ∨
        (keys.getD ((sortedIndices keys).getD a 0) 0 =
            keys.getD ((sortedIndices keys).getD b 0) 0 ∧
          (sortedIndices keys).getD a 0 < (sortedIndices keys).getD b 0)) ∧
    (∀ g a b ia ib, a < b →
      ((runsP keys).getD g []).getD a none = some ia →
      ((runsP keys).getD g []).getD b none = some ib →
      keys.getD ia 0 = keys.getD ib 0 → ia < ib) ∧
    (∀ i j, i < j → j < keys.length →
      linsp keys.length i < linsp keys.length j) ∧
    (∀ i j, i < keys.length → j < keys.length →
      |linsp keys.length j - linsp keys.length i| ≤ 9 / 10) ∧
    (∀ i j, keys.getD i 0 ≠ keys.getD j 0 →
      1 ≤ |keys.getD i 0 - keys.getD j 0|) := by
  refine ⟨fun a b hab hb => sorted_key_lex keys hab hb, ?_, ?_, ?_, ?_⟩
  · intro g a b ia ib hab hga hgb hkeq
    obtain ⟨hgb2, hpa2, hpan, hva⟩ := run_cell_positions keys hga
    obtain ⟨_, hpb2, hpbn, hvb⟩ := run_cell_positions keys hgb
    have hlex := sorted_key_lex keys
      (show (boundary keys).getD g 0 + a < (boundary keys).getD g 0 + b by omega)
      hpbn
    rw [hva, hvb] at hlex
    rcases hlex with hlt | ⟨_, hlt⟩
    · exact absurd hkeq (ne_of_lt hlt)
    · exact hlt
  · exact fun i j hij hj => linsp_strictMono hij hj
  · intro i j hi hj
    have b1 := linsp_nonneg keys.length i
    have b2 := linsp_nonneg keys.length j
    have b3 := linsp_le keys.length i hi
    have b4 := linsp_le keys.length j hj
    rw [abs_le]
    constructor <;> linarith
  · intro i j hne
    exact Int.one_le_abs (sub_ne_zero.mpr hne)

/-- Witness for C4 at keys `[1, 0, 1]`: rows `0` and `2` share key `1` and
appear in that order in the layout. -/
theorem c4_witness :
    (([1, 0, 1] : List ℤ).getD ((sortedIndices ([1, 0, 1] : List ℤ)).getD 1 0) 0 <
        ([1, 0, 1] : List ℤ).getD ((sortedIndices ([1, 0, 1] : List ℤ)).getD 2 0) 0 ∨
      (([1, 0, 1] : List ℤ).getD ((sortedIndices ([1, 0, 1] : List ℤ)).getD 1 0) 0 =
          ([1, 0, 1] : List ℤ).getD ((sortedIndices ([1, 0, 1] : List ℤ)).getD 2 0) 0 ∧
        (sortedIndices ([1, 0, 1] : List ℤ)).getD 1 0 < (sortedIndices ([1, 0, 1] : List ℤ)).getD 2 0)) ∧
    linsp 3 0 < linsp 3 2 := by
  exact ⟨(c4_sort_stability ([1, 0, 1] : List ℤ)).1 1 2 (by decide) (by decide),
    (c4_sort_stability ([1, 0, 1] : List ℤ)).2.2.1 0 2 (by decide) (by decide)⟩

end ParallelGroupBy

end Spectre
